import Mathlib

/-! PublicInbox::Gcf2: `cat_oid` and `add_alternate` over libgit2.

Shallow embedding of `lib/PublicInbox/gcf2_libgit2.h`.

* Bytes (`char`) are `Char`; buffers are `List Byte`.
* A pointer is a buffer together with an offset into it, so a `struct iovec`
  carries the buffer `iov_base` points into, the offset, and `iov_len`.
* `writev(2)` is the environment: the results of the successive calls are an
  input (`List WriteResult`); a call that returns `n > 0` makes the descriptor
  accept the first `n` bytes of the request.
* Every externally visible action (`writev`, `poll`, `git_odb_object_free`,
  `croak`, `return`) is appended to a trace, in program order.
* libgit2 itself is outside the repository; the handful of libgit2 calls used
  by `cat_oid` are modelled after libgit2's implementation.
-/

namespace Gcf2

/-! ## Constants -/

abbrev Byte := Char

/-- The terminating NUL byte written by `snprintf`. -/
def NUL : Byte := Char.ofNat 0

/-- libgit2 `GIT_OK`. -/
def GIT_OK : Int := 0

/-- libgit2 `GIT_OID_HEXSZ` (SHA-1). -/
def GIT_OID_HEXSZ : Nat := 40

/-- Linux `EINTR`. -/
def EINTR : Nat := 4

/-- Linux `EAGAIN` (equal to `EWOULDBLOCK`). -/
def EAGAIN : Nat := 11

/-- Linux `ENOSPC`. -/
def ENOSPC : Nat := 28

/-- `CAPA(vec)` for `struct iovec vec[3]`. -/
def CAPA : Nat := 3

/-- `sizeof(" commit 18446744073709551615")`: the characters plus the NUL. -/
def SIZEOF_TAIL : Nat := " commit 18446744073709551615".length + 1

/-- `sizeof(hdr)` for `char hdr[GIT_OID_HEXSZ + sizeof(" commit 18446744073709551615")]`. -/
def SIZEOF_HDR : Nat := GIT_OID_HEXSZ + SIZEOF_TAIL

/-! ## libgit2 (external library) -/

/-- A `git_oid`, kept as its sequence of hex digit values (nibbles), high
nibble of byte 0 first.  libgit2 stores 20 raw bytes, i.e. 40 nibbles. -/
abbrev git_oid := List Nat

/-- libgit2 `git__fromhex`: value of a hex digit, `-1` for any other byte. -/
def git__fromhex (c : Byte) : Int :=
  if '0' ≤ c ∧ c ≤ '9' then ((c.toNat - '0'.toNat : Nat) : Int)
  else if 'a' ≤ c ∧ c ≤ 'f' then ((c.toNat - 'a'.toNat + 10 : Nat) : Int)
  else if 'A' ≤ c ∧ c ≤ 'F' then ((c.toNat - 'A'.toNat + 10 : Nat) : Int)
  else -1

/-- The digit loop of `git_oid_fromstrn`: `none` as soon as a byte is not a
hex digit, otherwise the nibbles read. -/
def fromstrn_loop : List Byte → Option (List Nat)
  | [] => some []
  | c :: cs =>
    if git__fromhex c < 0 then none
    else (fromstrn_loop cs).map (fun ns => (git__fromhex c).toNat :: ns)

/-- libgit2 `git_oid_fromstrn(out, str, length)` (`src/oid.c`): "Parse N
characters of a hex formatted object id into a git_oid".  It fails (`-1`) when
`length` is zero ("too short"), when `length > GIT_OID_HEXSZ` ("too long") and
on a non-hex character; it first zeroes the oid (`memset`) and then ORs in one
nibble per character, so a string of fewer than `GIT_OID_HEXSZ` digits parses
and leaves the remaining nibbles zero.  (`git_oid_fromstr` is the variant that
reads exactly `GIT_OID_HEXSZ` characters; `cat_oid` calls this one, with the
length of the Perl string.) -/
def git_oid_fromstrn (str : List Byte) : Int × git_oid :=
  if str.length = 0 then (-1, [])
  else if str.length > GIT_OID_HEXSZ then (-1, [])
  else
    match fromstrn_loop str with
    | none => (-1, [])
    | some ns => (GIT_OK, ns ++ List.replicate (GIT_OID_HEXSZ - str.length) 0)

/-- libgit2 `to_hex` table. -/
def to_hex (n : Nat) : Byte := "0123456789abcdef".toList.getD (n % 16) '0'

/-- libgit2 `git_oid_nfmt(out, n, oid)` for `n ≤ GIT_OID_HEXSZ`: the first `n`
hex digits of the oid, lowercase, no terminator. -/
def git_oid_nfmt (n : Nat) (oid : git_oid) : List Byte :=
  (List.range n).map (fun i => to_hex (oid.getD i 0))

/-- libgit2 `git_object_t`, restricted to the types an object database holds. -/
inductive git_object_t
  | commit
  | tree
  | blob
  | tag
deriving DecidableEq, Repr

/-- libgit2 `git_object_type2string`. -/
def git_object_type2string : git_object_t → List Byte
  | .commit => "commit".toList
  | .tree => "tree".toList
  | .blob => "blob".toList
  | .tag => "tag".toList

/-- libgit2 `git_odb_object`: id, type, cached size and the data buffer.  The
size is the length of the buffer and is a `size_t`. -/
structure git_odb_object where
  id : git_oid
  type : git_object_t
  size : Nat
  data : List Byte
  size_eq : data.length = size
  size_lt : size < 2 ^ 64

def git_odb_object_id (o : git_odb_object) : git_oid := o.id
def git_odb_object_type (o : git_odb_object) : git_object_t := o.type
def git_odb_object_size (o : git_odb_object) : Nat := o.size
def git_odb_object_data (o : git_odb_object) : List Byte := o.data

/-- What `git_odb_read` hands back: `GIT_OK` with an object, or a status other
than `GIT_OK` (`GIT_ENOTFOUND`, ...) with no object. -/
inductive odb_read_result
  | found (object : git_odb_object)
  | error (rc : Int) (h : rc ≠ GIT_OK)

/-- The object database behind `odb_ptr(self)`, seen through exact lookups. -/
abbrev git_odb := git_oid → odb_read_result

/-- libgit2 `git_odb_read(&object, odb, &oid)`. -/
def git_odb_read (odb : git_odb) (oid : git_oid) : odb_read_result := odb oid

/-! ## libc -/

/-- C `struct iovec`. `buf` is the memory object `iov_base` points into and
`iov_base` the offset of the pointer from its start. -/
structure iovec where
  buf : List Byte
  iov_base : Nat
  iov_len : Nat
deriving DecidableEq, Repr

instance : Inhabited iovec := ⟨⟨[], 0, 0⟩⟩

/-- The bytes an iovec designates. -/
def iovec.bytes (v : iovec) : List Byte := (v.buf.drop v.iov_base).take v.iov_len

/-- Bytes designated by a sequence of iovecs, in order. -/
def iov_bytes : List iovec → List Byte
  | [] => []
  | v :: vs => v.bytes ++ iov_bytes vs

/-- Total of the `iov_len` fields. -/
def iov_total : List iovec → Nat
  | [] => 0
  | v :: vs => v.iov_len + iov_total vs

/-- C `snprintf(str, size, fmt, ...)` applied to the fully formatted text:
stores at most `size - 1` characters followed by NUL, and returns the length
the text has without truncation. -/
def snprintf (size : Nat) (text : List Byte) : List Byte × Nat :=
  if size = 0 then ([], text.length)
  else (text.take (size - 1) ++ [NUL], text.length)

/-- Storing `bytes` into `buf` at offset `off`. -/
def poke (buf : List Byte) (off : Nat) (bytes : List Byte) : List Byte :=
  buf.take off ++ bytes ++ buf.drop (off + bytes.length)

/-- The format `" %s %zu\n"`. -/
def fmt_tail (type : List Byte) (size : Nat) : List Byte :=
  [' '] ++ type ++ [' '] ++ Nat.toDigits 10 size ++ ['\n']

/-- An `errno` value set by a failed call; POSIX error numbers are positive. -/
structure Errno where
  val : Nat
  pos : 0 < val

/-- Outcome of one `writev` call: a byte count (`w ≥ 0`), or `-1` with `errno`
set. -/
inductive WriteResult
  | count (n : Nat)
  | error (e : Errno)

/-- The `ssize_t` returned by `writev`. -/
def WriteResult.ret : WriteResult → Int
  | .count n => (n : Int)
  | .error _ => -1

/-- The value of `errno` after the call (only read when the call failed). -/
def WriteResult.errno : WriteResult → Nat
  | .count _ => 0
  | .error e => e.val

/-- The bytes the descriptor takes from the request on this call. -/
def WriteResult.accepted (r : WriteResult) (req : List iovec) : List Byte :=
  match r with
  | .count n => (iov_bytes req).take n
  | .error _ => []

/-! ## cat_oid -/

/-- Externally visible actions of `cat_oid`, in program order. -/
inductive Event
  | writev (iov : List iovec)
  | poll
  | git_odb_object_free (object : git_odb_object)
  | croak (err : Nat)
  | ret (ok : Bool)

/-- Local variables of the write loop, the bytes accepted by `fd` so far and
the trace of actions so far. -/
structure WState where
  vec : List iovec
  nvec : Nat
  err : Nat
  fd : List Byte
  trace : List Event

/-- The argument of `writev(fd, vec + CAPA(vec) - nvec, nvec)`. -/
def WState.request (st : WState) : List iovec :=
  (st.vec.drop (CAPA - st.nvec)).take st.nvec

/-- The inner `for (i = CAPA(vec) - nvec; i < CAPA(vec); i++)` loop; returns the
updated `vec` and `done`. -/
def advance : Nat → Nat → Nat → Nat → List iovec → List iovec × Nat
  | 0, _, _, done, vec => (vec, done)
  | fuel + 1, i, w, done, vec =>
    if i < CAPA then
      let v := vec.getD i default
      if w ≥ v.iov_len then
        advance fuel (i + 1) (w - v.iov_len) (done + 1) vec
      else
        (vec.set i { v with iov_base := v.iov_base + w, iov_len := v.iov_len - w }, done)
    else (vec, done)

/-- One iteration of `while (nvec && !err)`, given the outcome of its `writev`. -/
def write_step (r : WriteResult) (st : WState) : WState :=
  let req := st.request
  let w : Int := r.ret
  let st := { st with fd := st.fd ++ r.accepted req, trace := st.trace ++ [Event.writev req] }
  if w > 0 then
    let (vec, done) := advance CAPA (CAPA - st.nvec) w.toNat 0 st.vec
    { st with vec := vec, nvec := st.nvec - done }
  else if w < 0 then
    let err := r.errno
    if err = EAGAIN then { st with err := 0, trace := st.trace ++ [Event.poll] }
    else if err = EINTR then { st with err := 0 }
    else { st with err := err }
  else { st with err := ENOSPC }

/-- The loop `while (nvec && !err)`, driven by the outcomes of the successive
`writev` calls.  `none`: the outcomes ran out while the loop still wanted to
write. -/
def write_loop : List WriteResult → WState → Option WState
  | [], st => if st.nvec ≠ 0 ∧ st.err = 0 then none else some st
  | r :: rs, st =>
    if st.nvec ≠ 0 ∧ st.err = 0 then write_loop rs (write_step r st) else some st

/-- The trailer `vec[2]`. -/
def trailer : iovec := { buf := ['\n'], iov_base := 0, iov_len := 1 }

/-- Contents of `hdr` after `git_oid_nfmt` and `snprintf`, and the value
assigned to `vec[0].iov_len`.  `hdr` is uninitialised on entry; it starts here
as NULs. -/
def build_hdr (object : git_odb_object) : List Byte × Nat :=
  let hdr := List.replicate SIZEOF_HDR NUL
  let hdr := poke hdr 0 (git_oid_nfmt GIT_OID_HEXSZ (git_odb_object_id object))
  let p := snprintf (SIZEOF_HDR - GIT_OID_HEXSZ)
    (fmt_tail (git_object_type2string (git_odb_object_type object)) (git_odb_object_size object))
  (poke hdr GIT_OID_HEXSZ p.1, GIT_OID_HEXSZ + p.2)

/-- The three iovecs on a hit. -/
def hit_vec (object : git_odb_object) : List iovec :=
  [ { buf := (build_hdr object).1, iov_base := 0, iov_len := (build_hdr object).2 },
    { buf := git_odb_object_data object, iov_base := 0, iov_len := git_odb_object_size object },
    trailer ]

/-- The three iovecs on a miss: only `vec[2]` has been assigned; the other two
are indeterminate and stand here as empty iovecs. -/
def miss_vec : List iovec := [default, default, trailer]

/-- How a call ends. -/
inductive Exit
  | returned (ok : Bool)
  | croaked (err : Nat)
deriving DecidableEq, Repr

/-- What a finished call leaves: how it ended and the final loop state, with
the bytes on the descriptor and the trace. -/
structure Result where
  exit : Exit
  st : WState

/-- Everything after the write loop: free the object if there is one, croak
if `err`, else `return rc == GIT_OK`. -/
def finish (rc : Int) (object : Option git_odb_object) (st : WState) : Result :=
  let tr := match object with
    | some o => st.trace ++ [Event.git_odb_object_free o]
    | none => st.trace
  if st.err ≠ 0 then
    { exit := .croaked st.err, st := { st with trace := tr ++ [Event.croak st.err] } }
  else
    { exit := .returned (decide (rc = GIT_OK)),
      st := { st with trace := tr ++ [Event.ret (decide (rc = GIT_OK))] } }

/-- Loop state on entry after a hit: `nvec = CAPA(vec)`, `err = 0`. -/
def hit_state (object : git_odb_object) : WState :=
  { vec := hit_vec object, nvec := CAPA, err := 0, fd := [], trace := [] }

/-- Loop state on entry after a miss: `nvec = 0`, `err = 0`. -/
def miss_state : WState :=
  { vec := miss_vec, nvec := 0, err := 0, fd := [], trace := [] }

/-- `int cat_oid(SV *self, int fd, SV *oidsv)`.  `odb` is `odb_ptr(self)`,
`ws` the outcomes of the `writev` calls on `fd`, `oidsv` the bytes of the
identifier.  `none`: the given outcomes end before the call does. -/
def cat_oid (odb : git_odb) (ws : List WriteResult) (oidsv : List Byte) : Option Result :=
  let p := git_oid_fromstrn oidsv
  if p.1 = GIT_OK then
    match git_odb_read odb p.2 with
    | .found object => (write_loop ws (hit_state object)).map (finish GIT_OK (some object))
    | .error rc _ => (write_loop ws miss_state).map (finish rc none)
  else
    (write_loop ws miss_state).map (finish p.1 none)

/-! ## Proof vocabulary -/

/-- An iovec lies inside its buffer. -/
def iovec.wf (v : iovec) : Prop := v.iov_base + v.iov_len ≤ v.buf.length

/-- List-level reading of `advance` on the pending segments: drop the segments
`w` covers in full, then advance the first one `w` does not cover. -/
def consume : Nat → List iovec → List iovec
  | _, [] => []
  | w, v :: vs =>
    if w ≥ v.iov_len then consume (w - v.iov_len) vs
    else { v with iov_base := v.iov_base + w, iov_len := v.iov_len - w } :: vs

/-- The bytes still to be written. -/
def WState.pending (st : WState) : List Byte := iov_bytes st.request

/-- Shape invariant of the write loop. -/
def WState.Inv (st : WState) : Prop :=
  st.vec.length = CAPA ∧ st.nvec ≤ CAPA ∧ (∀ v ∈ st.request, v.wf) ∧
    (st.nvec = 0 ∨ st.pending ≠ [])

/-- The header segment `vec[0]` designates on a hit. -/
def hdr_seg (object : git_odb_object) : List Byte :=
  (build_hdr object).1.take (build_hdr object).2

/-- The record a hit is meant to put on the descriptor. -/
def record (object : git_odb_object) : List Byte :=
  hdr_seg object ++ git_odb_object_data object ++ ['\n']

/-- Outcome sequences made only of positive counts not exceeding what is still
pending, would-block results and interrupted results; `p` is the number of
bytes pending.  Outcomes after the last pending byte are never consumed and
are left unconstrained. -/
def benign : List WriteResult → Nat → Bool
  | [], _ => true
  | .count n :: rs, p =>
    if p = 0 then true else if 0 < n ∧ n ≤ p then benign rs (p - n) else false
  | .error e :: rs, p =>
    if p = 0 then true else if e.val = EAGAIN ∨ e.val = EINTR then benign rs p else false

/-- Sum of the byte counts in a sequence of outcomes. -/
def counted : List WriteResult → Nat
  | [] => 0
  | .count n :: rs => n + counted rs
  | .error _ :: rs => counted rs

/-- The failure classification in the words of the design: a zero-byte write
is the no-space error, an error other than would-block or interrupted is that
error, anything else is no failure. -/
def spec_fatal : WriteResult → Option Nat
  | .count 0 => some ENOSPC
  | .count (_ + 1) => none
  | .error e => if e.val = EAGAIN ∨ e.val = EINTR then none else some e.val

/-- Number of `writev` calls in a trace. -/
def num_writev : List Event → Nat
  | [] => 0
  | .writev _ :: es => num_writev es + 1
  | _ :: es => num_writev es

/-- Number of `git_odb_object_free` calls in a trace. -/
def num_free : List Event → Nat
  | [] => 0
  | .git_odb_object_free _ :: es => num_free es + 1
  | _ :: es => num_free es

/-- The actions the write loop itself performs. -/
def Event.isLoopIO : Event → Bool
  | .writev _ => true
  | .poll => true
  | _ => false

/-- The identifier parsed and the store produced `object`. -/
def Hit (odb : git_odb) (oidsv : List Byte) (object : git_odb_object) : Prop :=
  (git_oid_fromstrn oidsv).1 = GIT_OK ∧
    git_odb_read odb (git_oid_fromstrn oidsv).2 = .found object

/-- The identifier did not parse, or the store reported a status other than
`GIT_OK`. -/
def Miss (odb : git_odb) (oidsv : List Byte) : Prop :=
  (git_oid_fromstrn oidsv).1 ≠ GIT_OK ∨
    ∃ rc h, git_odb_read odb (git_oid_fromstrn oidsv).2 = .error rc h

/-- What a call that misses leaves behind: nothing but the `return 0`. -/
def miss_result : Result :=
  { exit := .returned false, st := { miss_state with trace := [Event.ret false] } }

/-! ## Test data -/

def emptyBlobId : List Byte := "e69de29bb2d1d6434b8b29ae775ad8c2e48c5391".toList

def emptyBlob : git_odb_object :=
  { id := (git_oid_fromstrn emptyBlobId).2, type := .blob, size := 0, data := [],
    size_eq := rfl, size_lt := by decide }

/-- A store holding exactly the empty blob. -/
def emptyBlobStore : git_odb := fun oid =>
  if oid = emptyBlob.id then .found emptyBlob else .error (-3) (by decide)


/-- Outcomes used to exercise the loop on the empty blob: partial counts with a
would-block and an interrupt in between. -/
def sampleWrites : List WriteResult :=
  [.count 10, .error ⟨EAGAIN, by decide⟩, .count 30, .error ⟨EINTR, by decide⟩, .count 8,
    .count 1]

/-- The blob `"11\n"`, whose SHA-1 ends in a zero digit. -/
def blob11 : git_odb_object :=
  { id := (git_oid_fromstrn "b4de3947675361a7770d29b8982c407b0ec6b2a0".toList).2,
    type := .blob, size := 3, data := "11\n".toList, size_eq := rfl, size_lt := by decide }

/-- A store holding exactly `blob11`. -/
def blob11Store : git_odb := fun oid =>
  if oid = blob11.id then .found blob11 else .error (-3) (by decide)

/-- The id of `blob11` without its last digit: 39 characters. -/
def blob11ShortId : List Byte := "b4de3947675361a7770d29b8982c407b0ec6b2a".toList

/-- The identifier zero-padded on the right to the full hex width. -/
def zero_pad (s : List Byte) : List Byte := s ++ List.replicate (GIT_OID_HEXSZ - s.length) '0'

/-- A descriptor that takes one byte per call: every outcome is a count of 1,
possibly with would-block and interrupted results in between. -/
def one_byte : List WriteResult → Bool
  | [] => true
  | .count n :: rs => decide (n = 1) && one_byte rs
  | .error e :: rs => (decide (e.val = EAGAIN) || decide (e.val = EINTR)) && one_byte rs

/-- The 40-character id of `blob11`. -/
def blob11Id : List Byte := "b4de3947675361a7770d29b8982c407b0ec6b2a0".toList

/-- Outcomes ending in a zero-byte write after ten bytes went through. -/
def failingWrites : List WriteResult :=
  [.count 10, .error ⟨EAGAIN, by decide⟩, .count 0, .count 39]

/-- The action that ends the call. -/
def exit_event : Exit → Event
  | .returned b => Event.ret b
  | .croaked e => Event.croak e

/-- One byte per call, with a would-block before the second byte. -/
def oneByteWrites : List WriteResult :=
  .count 1 :: .error ⟨EAGAIN, by decide⟩ :: List.replicate 48 (.count 1)

/-! ## add_alternate -/

/-- An object directory as libgit2 finds it on disk: the inode `p_stat`
reports, the objects its loose and pack backends hold, and what
`load_alternates` does with its `info/alternates`: the status it returns and
the inodes and objects of the nested alternates it has registered by then. -/
structure objects_dir where
  st_ino : Nat
  objects : git_oid → Option git_odb_object
  alternates_rc : Int
  alternates_ino : List Nat
  alternates : git_oid → Option git_odb_object

/-- What libgit2 reaches from `git_odb_add_disk_alternate`: the directory at a
path (`none` when `p_stat` fails), and the message `giterr_last()` holds after
a failure (`none` for a NULL error). -/
structure odb_env where
  dir : List Byte → Option objects_dir
  giterr_last : Option (List Byte)

/-- libgit2 `git_odb` as `add_alternate` and `cat_oid` use it: the
`disk_inode` of the registered backends and the exact lookup across them. -/
structure odb_store where
  inodes : List Nat
  read : git_odb

/-- Lookup across a store extended by the backends of one more source.  A
backend is only ever added; the sources already registered are asked first,
and an id names the same object in every source that holds it. -/
def add_backends (odb : git_odb) (objects : git_oid → Option git_odb_object) : git_odb :=
  fun oid =>
    match odb oid with
    | .found o => .found o
    | .error rc h =>
      match objects oid with
      | some o => .found o
      | none => .error rc h

/-- libgit2 `git_odb_add_disk_alternate(odb, path)`, which is
`git_odb__add_default_backends(odb, path, true, 0)` (`src/odb.c`).  When
`p_stat(objects_dir, &st) < 0` and `as_alternates` is set it returns 0 without
touching the store (the source says "this should warn"); when a backend with
the directory's inode is registered already it returns 0; otherwise it adds
the loose and the pack backend of the directory and returns what
`load_alternates` returns.  Allocation failures are left out. -/
def git_odb_add_disk_alternate (env : odb_env) (db : odb_store) (path : List Byte) :
    Int × odb_store :=
  match env.dir path with
  | none => (0, db)
  | some d =>
    if d.st_ino ∈ db.inodes then (0, db)
    else
      (d.alternates_rc,
        { inodes := db.inodes ++ [d.st_ino, d.st_ino] ++ d.alternates_ino,
          read := add_backends (add_backends db.read d.objects) d.alternates })

/-- How a `void` XS function ends: it returns, or it croaks; the croak carries
the arguments of `croak("%d %s (%s)", rc, msg, ...)`. -/
inductive VoidExit
  | returned
  | croaked (rc : Int) (msg : List Byte) (detail : List Byte)
deriving DecidableEq, Repr

/-- `static void croak_if_err(int rc, const char *msg)`; `e` is what
`giterr_last()` returns. -/
def croak_if_err (e : Option (List Byte)) (rc : Int) (msg : List Byte) : VoidExit :=
  if rc ≠ GIT_OK then
    .croaked rc msg (match e with
      | some message => message
      | none => "unknown".toList)
  else .returned

/-- How `add_alternate` ends and the store behind `odb_ptr(self)` afterwards. -/
structure AltResult where
  exit : VoidExit
  odb : odb_store

/-- `void add_alternate(SV *self, const char *objects_path)`; `db` is the
store behind `odb_ptr(self)`. -/
def add_alternate (env : odb_env) (db : odb_store) (objects_path : List Byte) : AltResult :=
  let p := git_odb_add_disk_alternate env db objects_path
  { exit := croak_if_err env.giterr_last p.1 "git_odb_add_disk_alternate".toList,
    odb := p.2 }

/-- A store with one registered source (inode 7) holding the empty blob. -/
def emptyBlobDb : odb_store := { inodes := [7, 7], read := emptyBlobStore }

/-- A file system without any directory. -/
def noDirs : odb_env :=
  { dir := fun _ => none, giterr_last := none }

/-- A file system where every path is one directory (inode 9) that holds
`blob11` and whose `info/alternates` cannot be read. -/
def unreadableAlternates : odb_env :=
  { dir := fun _ => some
      { st_ino := 9,
        objects := fun oid => if oid = blob11.id then some blob11 else none,
        alternates_rc := -1,
        alternates_ino := [],
        alternates := fun _ => none },
    giterr_last := some "failed to read".toList }

/-- The largest size an object held in memory can have (`PTRDIFF_MAX`, LP64). -/
def PTRDIFF_MAX : Nat := 2 ^ 63 - 1

/-- A commit of the largest size an object in memory can have. -/
def largestCommit : git_odb_object :=
  { id := (git_oid_fromstrn "0123456789abcdef0123456789abcdef01234567".toList).2,
    type := .commit,
    size := 9223372036854775807,
    data := List.replicate 9223372036854775807 'x',
    size_eq := List.length_replicate _ _,
    size_lt := by decide }

/-- A store holding exactly `largestCommit`. -/
def largestCommitStore : git_odb := fun oid =>
  if oid = largestCommit.id then .found largestCommit else .error (-3) (by decide)

/-- The 40-character id of `largestCommit`. -/
def largestCommitId : List Byte := "0123456789abcdef0123456789abcdef01234567".toList

/-- A segment with its start advanced by `k` and its length reduced by `k`. -/
def iovec.advanced (v : iovec) (k : Nat) : iovec :=
  { v with iov_base := v.iov_base + k, iov_len := v.iov_len - k }

/-- Outcome sequences in which every write call returns a positive count not
exceeding the bytes still pending; `p` is the number of bytes pending.
Outcomes after the last pending byte are never consumed and are left
unconstrained. -/
def positive_counts : List WriteResult → Nat → Bool
  | [], _ => true
  | .count n :: rs, p =>
    if p = 0 then true else if 0 < n ∧ n ≤ p then positive_counts rs (p - n) else false
  | .error _ :: _, p => if p = 0 then true else false

/-- The loop state once the loop has consumed the outcomes `rs`, or the state
it ended in if it ended before consuming them all. -/
def write_run : List WriteResult → WState → WState
  | [], st => st
  | r :: rs, st => if st.nvec ≠ 0 ∧ st.err = 0 then write_run rs (write_step r st) else st

/-- Invariant of the loop on a hit: the shape invariant, and the last pending
segment is the trailer. -/
def WState.TrailerInv (st : WState) : Prop :=
  st.Inv ∧ (st.nvec = 0 ∨ st.request.getLast? = some trailer)

/-- Forty-nine one-byte writes. -/
def unitWrites : List WriteResult := List.replicate 49 (.count 1)

/-! ## The segment-advance loop -/

theorem iovec.bytes_length {v : iovec} (h : v.wf) : v.bytes.length = v.iov_len := by
  unfold iovec.bytes iovec.wf at *
  simp only [List.length_take, List.length_drop]
  omega

theorem iov_bytes_length {vs : List iovec} (h : ∀ v ∈ vs, v.wf) :
    (iov_bytes vs).length = iov_total vs := by
  induction vs with
  | nil => rfl
  | cons v vs ih =>
    simp only [iov_bytes, iov_total, List.length_append]
    rw [iovec.bytes_length (h v (List.mem_cons_self _ _)),
      ih (fun x hx => h x (List.mem_cons_of_mem _ hx))]

theorem consume_wf : ∀ (w : Nat) (vs : List iovec), (∀ v ∈ vs, v.wf) → ∀ v ∈ consume w vs, v.wf
  | _, [], _ => by simp [consume]
  | w, v :: vs, h => by
    have hv := h v (List.mem_cons_self _ _)
    have hvs : ∀ x ∈ vs, x.wf := fun x hx => h x (List.mem_cons_of_mem _ hx)
    unfold consume
    split
    · exact consume_wf _ vs hvs
    · intro x hx
      rcases List.mem_cons.mp hx with rfl | hx
      · unfold iovec.wf at *
        simp only
        omega
      · exact hvs x hx

theorem consume_bytes : ∀ (w : Nat) (vs : List iovec), (∀ v ∈ vs, v.wf) →
    iov_bytes (consume w vs) = (iov_bytes vs).drop w
  | _, [], _ => by simp [consume, iov_bytes]
  | w, v :: vs, h => by
    have hv := h v (List.mem_cons_self _ _)
    have hvs : ∀ x ∈ vs, x.wf := fun x hx => h x (List.mem_cons_of_mem _ hx)
    have hl := iovec.bytes_length hv
    unfold consume
    split
    · rename_i hw
      have h1 : v.bytes.drop w = [] := List.drop_of_length_le (by omega)
      rw [consume_bytes _ vs hvs]
      simp only [iov_bytes]
      rw [List.drop_append_eq_append_drop, hl, h1]
      simp
    · rename_i hw
      simp only [iov_bytes]
      rw [List.drop_append_of_le_length (by omega)]
      congr 1
      unfold iovec.bytes
      simp only
      rw [List.drop_take, List.drop_drop]

theorem consume_length_le : ∀ (w : Nat) (vs : List iovec), (consume w vs).length ≤ vs.length
  | _, [] => by simp [consume]
  | w, v :: vs => by
    unfold consume
    split
    · have := consume_length_le (w - v.iov_len) vs
      simp only [List.length_cons]
      omega
    · simp

/-- After `consume`, either nothing is pending or the first pending segment is
non-empty. -/
theorem consume_head_pos : ∀ (w : Nat) (vs : List iovec),
    consume w vs = [] ∨ ∃ v rest, consume w vs = v :: rest ∧ 0 < v.iov_len
  | _, [] => by simp [consume]
  | w, v :: vs => by
    unfold consume
    split
    · exact consume_head_pos _ vs
    · right
      refine ⟨_, _, rfl, ?_⟩
      simp only
      omega

theorem advance_spec : ∀ (fuel i w done : Nat) (vec : List iovec),
    CAPA ≤ i + fuel → vec.length = CAPA →
    (advance fuel i w done vec).1.length = CAPA ∧
    done ≤ (advance fuel i w done vec).2 ∧
    (advance fuel i w done vec).1.drop (i + ((advance fuel i w done vec).2 - done))
      = consume w (vec.drop i) ∧
    ((advance fuel i w done vec).2 - done) + (consume w (vec.drop i)).length = CAPA - i ∧
    (advance fuel i w done vec).1.take i = vec.take i
  | 0, i, w, done, vec, hf, hlen => by
    have : vec.drop i = [] := List.drop_of_length_le (by omega)
    simp only [advance, this, consume]
    simp only [Nat.sub_self, Nat.add_zero, this, List.length_nil]
    exact ⟨hlen, Nat.le_refl _, trivial, by omega, trivial⟩
  | fuel + 1, i, w, done, vec, hf, hlen => by
    unfold advance
    by_cases hi : i < CAPA
    · have hil : i < vec.length := by omega
      have hd : vec.drop i = vec[i] :: vec.drop (i + 1) := List.drop_eq_getElem_cons hil
      have hg : vec.getD i default = vec[i] := List.getD_eq_getElem _ _ hil
      simp only [hi, if_true, hg]
      by_cases hw : w ≥ vec[i].iov_len
      · simp only [hw, if_true]
        obtain ⟨h1, h2, h3, h4, h5⟩ :=
          advance_spec fuel (i + 1) (w - vec[i].iov_len) (done + 1) vec (by omega) hlen
        have hc : consume w (vec.drop i) = consume (w - vec[i].iov_len) (vec.drop (i + 1)) := by
          rw [hd]
          simp [consume, hw]
        refine ⟨h1, by omega, ?_, ?_, ?_⟩
        · rw [hc, ← h3]
          congr 1
          omega
        · rw [hc]
          omega
        · have := congrArg (List.take i) h5
          simpa [List.take_take, Nat.min_eq_left (Nat.le_succ i)] using this
      · simp only [hw, if_false]
        have hc : consume w (vec.drop i) =
            { vec[i] with iov_base := vec[i].iov_base + w, iov_len := vec[i].iov_len - w }
              :: vec.drop (i + 1) := by
          rw [hd]
          simp [consume, hw]
        refine ⟨by simp [hlen], Nat.le_refl _, ?_, ?_, ?_⟩
        · rw [hc, Nat.sub_self, Nat.add_zero, List.drop_set, if_neg (Nat.lt_irrefl i),
            Nat.sub_self, hd]
          rfl
        · rw [hc]
          simp only [List.length_cons, List.length_drop]
          omega
        · rw [List.set_take, List.set_eq_of_length_le]
          simp
    · have : vec.drop i = [] := List.drop_of_length_le (by omega)
      simp only [hi, if_false, this, consume]
      simp only [Nat.sub_self, Nat.add_zero, this, List.length_nil]
      exact ⟨hlen, Nat.le_refl _, trivial, by omega, trivial⟩

/-! ## One iteration of the write loop -/

theorem write_step_count (n : Nat) (hn : 0 < n) (st : WState) :
    write_step (.count n) st =
      { vec := (advance CAPA (CAPA - st.nvec) n 0 st.vec).1,
        nvec := st.nvec - (advance CAPA (CAPA - st.nvec) n 0 st.vec).2,
        err := st.err,
        fd := st.fd ++ (iov_bytes st.request).take n,
        trace := st.trace ++ [Event.writev st.request] } := by
  have h : ((n : Int) > 0) := by omega
  simp [write_step, WriteResult.ret, WriteResult.accepted, h]

theorem write_step_zero (st : WState) :
    write_step (.count 0) st =
      { st with err := ENOSPC, trace := st.trace ++ [Event.writev st.request] } := by
  simp [write_step, WriteResult.ret, WriteResult.accepted]

theorem write_step_error (e : Errno) (st : WState) :
    write_step (.error e) st =
      if e.val = EAGAIN then
        { st with err := 0, trace := st.trace ++ [Event.writev st.request, Event.poll] }
      else if e.val = EINTR then
        { st with err := 0, trace := st.trace ++ [Event.writev st.request] }
      else
        { st with err := e.val, trace := st.trace ++ [Event.writev st.request] } := by
  simp only [write_step, WriteResult.ret, WriteResult.accepted, WriteResult.errno]
  split_ifs <;> simp_all

theorem request_eq_drop {st : WState} (h1 : st.vec.length = CAPA) (h2 : st.nvec ≤ CAPA) :
    st.request = st.vec.drop (CAPA - st.nvec) := by
  unfold WState.request
  apply List.take_of_length_le
  simp only [List.length_drop]
  omega

/-- A positive count `n` leaves exactly the pending segments `consume n` yields. -/
theorem write_step_count_request (n : Nat) (hn : 0 < n) (st : WState) (hI : st.Inv) :
    (write_step (.count n) st).vec.length = CAPA ∧
    (write_step (.count n) st).nvec = (consume n st.request).length ∧
    (write_step (.count n) st).request = consume n st.request := by
  obtain ⟨h1, h2, _, _⟩ := hI
  obtain ⟨a1, _, a3, a4, _⟩ := advance_spec CAPA (CAPA - st.nvec) n 0 st.vec (by omega) h1
  rw [← request_eq_drop h1 h2] at a3 a4
  simp only [Nat.sub_zero] at a3 a4
  have hnv : (write_step (.count n) st).nvec = (consume n st.request).length := by
    rw [write_step_count n hn]
    simp only
    omega
  have hv : (write_step (.count n) st).vec = (advance CAPA (CAPA - st.nvec) n 0 st.vec).1 := by
    rw [write_step_count n hn]
  have hl : (write_step (.count n) st).vec.length = CAPA := by rw [hv]; exact a1
  refine ⟨hl, hnv, ?_⟩
  have hle : (write_step (.count n) st).nvec ≤ CAPA := by omega
  rw [request_eq_drop hl hle, hv, ← a3]
  congr 1
  omega

theorem write_step_count_inv (n : Nat) (hn : 0 < n) (st : WState) (hI : st.Inv) :
    (write_step (.count n) st).Inv ∧
    (write_step (.count n) st).pending = st.pending.drop n ∧
    (write_step (.count n) st).fd = st.fd ++ st.pending.take n ∧
    (write_step (.count n) st).err = st.err ∧
    (write_step (.count n) st).nvec ≤ st.nvec := by
  obtain ⟨b1, b2, b3⟩ := write_step_count_request n hn st hI
  obtain ⟨h1, h2, h3, _⟩ := hI
  have hwf := consume_wf n st.request h3
  have hlen : st.request.length ≤ st.nvec := by
    unfold WState.request
    simp only [List.length_take]
    omega
  have hcl := consume_length_le n st.request
  refine ⟨⟨b1, by omega, by rw [b3]; exact hwf, ?_⟩, ?_, ?_, ?_, by omega⟩
  · rcases consume_head_pos n st.request with h | ⟨v, rest, h, hp⟩
    · left
      rw [b2, h]
      rfl
    · right
      have hv : v.wf := hwf v (by rw [h]; exact List.mem_cons_self _ _)
      have hb := iovec.bytes_length hv
      unfold WState.pending
      rw [b3, h]
      intro hnil
      have := congrArg List.length hnil
      simp only [iov_bytes, List.length_append, List.length_nil] at this
      omega
  · unfold WState.pending
    rw [b3]
    exact consume_bytes n st.request h3
  · rw [write_step_count n hn]
    rfl
  · rw [write_step_count n hn]

theorem write_step_nonpos (r : WriteResult) (hr : r.ret ≤ 0) (st : WState) :
    (write_step r st).vec = st.vec ∧ (write_step r st).nvec = st.nvec ∧
    (write_step r st).fd = st.fd := by
  cases r with
  | count n =>
    have : n = 0 := by simp only [WriteResult.ret] at hr; omega
    subst this
    rw [write_step_zero]
    exact ⟨rfl, rfl, rfl⟩
  | error e =>
    rw [write_step_error]
    split_ifs <;> exact ⟨rfl, rfl, rfl⟩

theorem inv_congr {a b : WState} (hv : a.vec = b.vec) (hn : a.nvec = b.nvec) (h : b.Inv) :
    a.Inv ∧ a.request = b.request ∧ a.pending = b.pending := by
  have hr : a.request = b.request := by unfold WState.request; rw [hv, hn]
  have hp : a.pending = b.pending := by unfold WState.pending; rw [hr]
  refine ⟨?_, hr, hp⟩
  unfold WState.Inv at *
  rw [hv, hn, hr, hp]
  exact h

/-- The error flag after one iteration is the design's failure classification. -/
theorem write_step_err (r : WriteResult) (st : WState) (h : st.err = 0) :
    (write_step r st).err = (spec_fatal r).getD 0 ∧ ∀ e, spec_fatal r = some e → e ≠ 0 := by
  cases r with
  | count n =>
    cases n with
    | zero =>
      rw [write_step_zero]
      simp [spec_fatal, ENOSPC]
    | succ n =>
      rw [write_step_count (n + 1) (Nat.succ_pos n)]
      simp [spec_fatal, h]
  | error e =>
    rw [write_step_error]
    have := e.pos
    simp only [spec_fatal]
    split_ifs
    all_goals simp_all
    omega

/-- Every iteration issues exactly one `writev`, on the current request, and
adds nothing but a possible `poll` after it. -/
theorem write_step_trace (r : WriteResult) (st : WState) :
    ∃ T, (write_step r st).trace = st.trace ++ Event.writev st.request :: T ∧
      (T = [] ∨ T = [Event.poll]) := by
  cases r with
  | count n =>
    cases n with
    | zero =>
      rw [write_step_zero]
      exact ⟨[], rfl, Or.inl rfl⟩
    | succ n =>
      rw [write_step_count (n + 1) (Nat.succ_pos n)]
      exact ⟨[], rfl, Or.inl rfl⟩
  | error e =>
    rw [write_step_error]
    split_ifs
    · exact ⟨[Event.poll], by simp, Or.inr rfl⟩
    · exact ⟨[], rfl, Or.inl rfl⟩
    · exact ⟨[], rfl, Or.inl rfl⟩

theorem write_step_inv (r : WriteResult) (st : WState) (hI : st.Inv) :
    (write_step r st).Inv ∧
    (write_step r st).fd ++ (write_step r st).pending = st.fd ++ st.pending := by
  by_cases hr : r.ret ≤ 0
  · obtain ⟨h1, h2, h3⟩ := write_step_nonpos r hr st
    obtain ⟨i1, _, i3⟩ := inv_congr h1 h2 hI
    exact ⟨i1, by rw [h3, i3]⟩
  · cases r with
    | error e => simp [WriteResult.ret] at hr
    | count n =>
      have hn : 0 < n := by simp only [WriteResult.ret] at hr; omega
      obtain ⟨i1, i2, i3, _, _⟩ := write_step_count_inv n hn st hI
      refine ⟨i1, ?_⟩
      rw [i2, i3, List.append_assoc, List.take_append_drop]

/-! ## The write loop -/

theorem write_loop_done (rs : List WriteResult) (st : WState)
    (h : ¬(st.nvec ≠ 0 ∧ st.err = 0)) : write_loop rs st = some st := by
  cases rs <;> simp only [write_loop, h, if_false]

theorem write_loop_cons (r : WriteResult) (rs : List WriteResult) (st : WState)
    (h : st.nvec ≠ 0 ∧ st.err = 0) :
    write_loop (r :: rs) st = write_loop rs (write_step r st) := by
  simp only [write_loop, h, if_true, ne_eq, not_false_eq_true, and_self]

theorem write_loop_nil (st : WState) (h : st.nvec ≠ 0 ∧ st.err = 0) :
    write_loop [] st = none := by
  simp only [write_loop, h, if_true, ne_eq, not_false_eq_true, and_self]

/-- The loop keeps the shape invariant, never loses or repeats a byte, and only
stops with nothing pending or with the error flag set. -/
theorem write_loop_inv : ∀ (rs : List WriteResult) (st st' : WState),
    st.Inv → write_loop rs st = some st' →
    st'.Inv ∧ st'.fd ++ st'.pending = st.fd ++ st.pending ∧ (st'.nvec = 0 ∨ st'.err ≠ 0)
  | [], st, st', hI, h => by
    by_cases hc : st.nvec ≠ 0 ∧ st.err = 0
    · rw [write_loop_nil st hc] at h
      cases h
    · rw [write_loop_done [] st hc] at h
      cases h
      refine ⟨hI, rfl, ?_⟩
      by_cases hz : st.nvec = 0
      · exact Or.inl hz
      · exact Or.inr (fun he => hc ⟨hz, he⟩)
  | r :: rs, st, st', hI, h => by
    by_cases hc : st.nvec ≠ 0 ∧ st.err = 0
    · rw [write_loop_cons r rs st hc] at h
      obtain ⟨i1, i2⟩ := write_step_inv r st hI
      obtain ⟨j1, j2, j3⟩ := write_loop_inv rs _ st' i1 h
      exact ⟨j1, j2.trans i2, j3⟩
    · rw [write_loop_done (r :: rs) st hc] at h
      cases h
      refine ⟨hI, rfl, ?_⟩
      by_cases hz : st.nvec = 0
      · exact Or.inl hz
      · exact Or.inr (fun he => hc ⟨hz, he⟩)

/-- Under benign outcomes the loop never sets the error flag, and it runs to
completion as soon as the counts add up to the pending bytes. -/
theorem write_loop_benign : ∀ (rs : List WriteResult) (st : WState),
    st.Inv → st.err = 0 → benign rs st.pending.length = true →
    (∀ st', write_loop rs st = some st' → st'.err = 0) ∧
    (st.pending.length ≤ counted rs → ∃ st', write_loop rs st = some st')
  | [], st, hI, he, _ => by
    by_cases hc : st.nvec ≠ 0 ∧ st.err = 0
    · rw [write_loop_nil st hc]
      refine ⟨fun _ h => (by cases h), fun hle => ?_⟩
      rcases hI.2.2.2 with hz | hp
      · exact absurd hz hc.1
      · simp only [counted, Nat.le_zero, List.length_eq_zero] at hle
        exact absurd hle hp
    · rw [write_loop_done [] st hc]
      exact ⟨fun _ h => by cases h; exact he, fun _ => ⟨st, rfl⟩⟩
  | r :: rs, st, hI, he, hb => by
    by_cases hc : st.nvec ≠ 0 ∧ st.err = 0
    · rw [write_loop_cons r rs st hc]
      have hpos : st.pending.length ≠ 0 := by
        rcases hI.2.2.2 with hz | hp
        · exact absurd hz hc.1
        · simpa using hp
      cases r with
      | count n =>
        simp only [benign, hpos, if_false] at hb
        by_cases hnn : 0 < n ∧ n ≤ st.pending.length
        swap
        · simp [hnn] at hb
        simp only [hnn, and_self, if_true] at hb
        obtain ⟨hn, hle⟩ := hnn
        obtain ⟨i1, i2, _, i4, _⟩ := write_step_count_inv n hn st hI
        have hlen : (write_step (.count n) st).pending.length = st.pending.length - n := by
          rw [i2, List.length_drop]
        rw [← hlen] at hb
        obtain ⟨k1, k2⟩ := write_loop_benign rs _ i1 (i4.trans he) hb
        refine ⟨k1, fun hc => k2 ?_⟩
        simp only [counted] at hc
        omega
      | error e =>
        simp only [benign, hpos, if_false] at hb
        by_cases hee : e.val = EAGAIN ∨ e.val = EINTR
        swap
        · simp [hee] at hb
        simp only [hee, if_true] at hb
        obtain ⟨h1, h2, _⟩ := write_step_nonpos (.error e) (by simp [WriteResult.ret]) st
        obtain ⟨i1, _, i3⟩ := inv_congr h1 h2 hI
        have herr : (write_step (.error e) st).err = 0 := by
          rw [(write_step_err (.error e) st he).1]
          simp [spec_fatal, hee]
        rw [← i3] at hb
        obtain ⟨k1, k2⟩ := write_loop_benign rs _ i1 herr hb
        refine ⟨k1, fun hc => k2 ?_⟩
        simp only [counted] at hc
        rw [i3]
        exact hc
    · rw [write_loop_done (r :: rs) st hc]
      exact ⟨fun _ h => by cases h; exact he, fun _ => ⟨st, rfl⟩⟩

theorem num_writev_append (a b : List Event) :
    num_writev (a ++ b) = num_writev a + num_writev b := by
  induction a with
  | nil => simp [num_writev]
  | cons e a ih =>
    rw [List.cons_append]
    cases e
    all_goals simp only [num_writev, ih]
    omega

theorem write_step_num_writev (r : WriteResult) (st : WState) :
    num_writev (write_step r st).trace = num_writev st.trace + 1 := by
  obtain ⟨T, hT, h | h⟩ := write_step_trace r st <;>
    · rw [hT, h, num_writev_append]
      simp [num_writev]

/-- The outcomes the loop consumed, one per `writev` call: either none of them
is a failure and the error flag is clear, or the last one consumed is the only
failure and the error flag holds its error number. -/
theorem write_loop_fatal : ∀ (rs : List WriteResult) (st st' : WState),
    st.err = 0 → write_loop rs st = some st' →
    ∃ used rest, rs = used ++ rest ∧
      num_writev st'.trace = num_writev st.trace + used.length ∧
      ((st'.err = 0 ∧ ∀ r ∈ used, spec_fatal r = none) ∨
       (∃ pre r, used = pre ++ [r] ∧ (∀ x ∈ pre, spec_fatal x = none) ∧
          spec_fatal r = some st'.err ∧ st'.err ≠ 0))
  | [], st, st', he, h => by
    by_cases hc : st.nvec ≠ 0 ∧ st.err = 0
    · rw [write_loop_nil st hc] at h
      cases h
    · rw [write_loop_done [] st hc] at h
      cases h
      exact ⟨[], [], rfl, rfl, Or.inl ⟨he, by simp⟩⟩
  | r :: rs, st, st', he, h => by
    by_cases hc : st.nvec ≠ 0 ∧ st.err = 0
    · rw [write_loop_cons r rs st hc] at h
      obtain ⟨e1, e2⟩ := write_step_err r st he
      have hw := write_step_num_writev r st
      cases hf : spec_fatal r with
      | none =>
        rw [hf] at e1
        obtain ⟨used, rest, h1, h2, h3⟩ := write_loop_fatal rs _ st' e1 h
        refine ⟨r :: used, rest, by rw [h1]; rfl, by rw [h2, hw, List.length_cons]; omega, ?_⟩
        rcases h3 with ⟨h3, h4⟩ | ⟨pre, x, h3, h4, h5, h6⟩
        · left
          refine ⟨h3, fun y hy => ?_⟩
          rcases List.mem_cons.mp hy with rfl | hy
          · exact hf
          · exact h4 y hy
        · right
          refine ⟨r :: pre, x, by rw [h3]; rfl, fun y hy => ?_, h5, h6⟩
          rcases List.mem_cons.mp hy with rfl | hy
          · exact hf
          · exact h4 y hy
      | some e =>
        rw [hf] at e1
        have hne : e ≠ 0 := e2 e hf
        have hd : ¬((write_step r st).nvec ≠ 0 ∧ (write_step r st).err = 0) := by
          rw [e1]
          exact fun hh => hne hh.2
        rw [write_loop_done rs _ hd] at h
        cases h
        refine ⟨[r], rs, rfl, by rw [hw]; rfl, Or.inr ⟨[], r, rfl, by simp, ?_, ?_⟩⟩
        · rw [e1]
          exact hf
        · rw [e1]
          exact hne
    · rw [write_loop_done (r :: rs) st hc] at h
      cases h
      exact ⟨[], r :: rs, rfl, rfl, Or.inl ⟨he, by simp⟩⟩

/-- The loop only ever appends `writev` and `poll` actions to the trace. -/
theorem write_loop_trace : ∀ (rs : List WriteResult) (st st' : WState),
    write_loop rs st = some st' →
    ∃ T, st'.trace = st.trace ++ T ∧ ∀ e ∈ T, e.isLoopIO = true
  | [], st, st', h => by
    by_cases hc : st.nvec ≠ 0 ∧ st.err = 0
    · rw [write_loop_nil st hc] at h
      cases h
    · rw [write_loop_done [] st hc] at h
      cases h
      exact ⟨[], by simp, by simp⟩
  | r :: rs, st, st', h => by
    by_cases hc : st.nvec ≠ 0 ∧ st.err = 0
    · rw [write_loop_cons r rs st hc] at h
      obtain ⟨T, hT, hio⟩ := write_loop_trace rs _ st' h
      obtain ⟨U, hU, hu⟩ := write_step_trace r st
      refine ⟨Event.writev st.request :: U ++ T, by rw [hT, hU]; simp, fun e he => ?_⟩
      rcases List.mem_append.mp he with he | he
      · rcases List.mem_cons.mp he with rfl | he
        · rfl
        · rcases hu with rfl | rfl
          · cases he
          · rw [List.mem_singleton.mp he]
            rfl
      · exact hio e he
    · rw [write_loop_done (r :: rs) st hc] at h
      cases h
      exact ⟨[], by simp, by simp⟩

/-! ## The header buffer -/

theorem SIZEOF_TAIL_eq : SIZEOF_TAIL = 29 := by decide

theorem SIZEOF_HDR_eq : SIZEOF_HDR = 69 := by decide

theorem git_oid_nfmt_length (n : Nat) (oid : git_oid) : (git_oid_nfmt n oid).length = n := by
  simp [git_oid_nfmt]

theorem type2string_length_le (t : git_object_t) : (git_object_type2string t).length ≤ 6 := by
  cases t <;> decide

theorem toDigits_length_le {n : Nat} (h : n < 2 ^ 64) : (Nat.toDigits 10 n).length ≤ 20 := by
  unfold Nat.toDigits
  exact Nat.toDigitsCore_length 10 (by decide) (n + 1) n 20
    (Nat.lt_trans h (by norm_num)) (by decide)

theorem toDigits_length_pos (n : Nat) : 0 < (Nat.toDigits 10 n).length := by
  unfold Nat.toDigits
  simp only [Nat.toDigitsCore]
  split
  · simp
  · rw [Nat.toDigitsCore_lens_eq]
    omega

/-- The formatted tail of every object fits the count `snprintf` can return
without running past `hdr`. -/
theorem fmt_tail_length_le (o : git_odb_object) :
    (fmt_tail (git_object_type2string (git_odb_object_type o)) (git_odb_object_size o)).length
      ≤ SIZEOF_TAIL := by
  have h1 := type2string_length_le (git_odb_object_type o)
  have h2 := toDigits_length_le o.size_lt
  rw [SIZEOF_TAIL_eq]
  simp only [fmt_tail, git_odb_object_size, List.length_append, List.length_cons,
    List.length_nil]
  omega

theorem poke_hdr (hex s : List Byte) (hh : hex.length = GIT_OID_HEXSZ) :
    poke (poke (List.replicate SIZEOF_HDR NUL) 0 hex) GIT_OID_HEXSZ s
      = hex ++ (s ++ List.replicate (SIZEOF_TAIL - s.length) NUL) := by
  have h1 : poke (List.replicate SIZEOF_HDR NUL) 0 hex = hex ++ List.replicate SIZEOF_TAIL NUL := by
    simp [poke, hh, SIZEOF_HDR]
  rw [h1]
  unfold poke
  rw [List.take_append_of_le_length (by omega), List.take_of_length_le (by omega),
    ← hh, List.drop_append, List.drop_replicate, List.append_assoc]

/-- What `vec[0]` designates: the forty hex digits, then the formatted tail if
it fits in front of the NUL, else its first `sizeof - 1` characters and the NUL. -/
theorem hdr_seg_eq (o : git_odb_object) :
    hdr_seg o = git_oid_nfmt GIT_OID_HEXSZ (git_odb_object_id o) ++
      (if (fmt_tail (git_object_type2string (git_odb_object_type o))
            (git_odb_object_size o)).length < SIZEOF_TAIL
        then fmt_tail (git_object_type2string (git_odb_object_type o)) (git_odb_object_size o)
        else (fmt_tail (git_object_type2string (git_odb_object_type o))
            (git_odb_object_size o)).take (SIZEOF_TAIL - 1) ++ [NUL]) := by
  have hle := fmt_tail_length_le o
  have hh := git_oid_nfmt_length GIT_OID_HEXSZ (git_odb_object_id o)
  have hs : SIZEOF_HDR - GIT_OID_HEXSZ = SIZEOF_TAIL := by decide
  have hz : SIZEOF_TAIL ≠ 0 := by decide
  unfold hdr_seg build_hdr
  simp only [snprintf]
  rw [hs, if_neg hz]
  simp only
  generalize fmt_tail (git_object_type2string (git_odb_object_type o))
    (git_odb_object_size o) = text at hle ⊢
  generalize git_oid_nfmt GIT_OID_HEXSZ (git_odb_object_id o) = hex at hh ⊢
  rw [poke_hdr hex _ hh, ← hh, List.take_append]
  congr 1
  by_cases hlt : text.length < SIZEOF_TAIL
  · rw [if_pos hlt, List.take_of_length_le (by omega : text.length ≤ SIZEOF_TAIL - 1),
      List.append_assoc, List.take_left']
    rfl
  · have he : text.length = SIZEOF_TAIL := by omega
    rw [if_neg hlt]
    have hl : (List.take (SIZEOF_TAIL - 1) text ++ [NUL]).length = text.length := by
      simp only [List.length_append, List.length_take, List.length_cons, List.length_nil]
      omega
    rw [← hl, List.take_left']
    rfl

theorem hdr_seg_length (o : git_odb_object) :
    (hdr_seg o).length = (build_hdr o).2 ∧ (build_hdr o).1.length = SIZEOF_HDR ∧
    (build_hdr o).2 ≤ SIZEOF_HDR := by
  have hle := fmt_tail_length_le o
  have hh := git_oid_nfmt_length GIT_OID_HEXSZ (git_odb_object_id o)
  have h2 : (build_hdr o).2 = GIT_OID_HEXSZ +
      (fmt_tail (git_object_type2string (git_odb_object_type o))
        (git_odb_object_size o)).length := by
    simp only [build_hdr, snprintf]
    split_ifs <;> rfl
  have h1 : (build_hdr o).1.length = SIZEOF_HDR := by
    have hs : SIZEOF_HDR - GIT_OID_HEXSZ = SIZEOF_TAIL := by decide
    have hz : SIZEOF_TAIL ≠ 0 := by decide
    simp only [build_hdr, snprintf]
    rw [hs, if_neg hz]
    simp only
    rw [poke_hdr _ _ hh]
    simp only [List.length_append, hh, List.length_take, List.length_cons, List.length_nil,
      List.length_replicate, SIZEOF_HDR]
    omega
  refine ⟨?_, h1, ?_⟩
  · unfold hdr_seg
    rw [List.length_take, h1, h2]
    have : SIZEOF_HDR = GIT_OID_HEXSZ + SIZEOF_TAIL := rfl
    omega
  · rw [h2]
    have : SIZEOF_HDR = GIT_OID_HEXSZ + SIZEOF_TAIL := rfl
    omega

/-! ## Entry states of the loop -/

theorem hit_state_pending (o : git_odb_object) : (hit_state o).pending = record o := by
  have hd : List.take o.size o.data = o.data := List.take_of_length_le (by rw [o.size_eq])
  simp [WState.pending, WState.request, hit_state, hit_vec, CAPA, iov_bytes, iovec.bytes,
    trailer, record, hdr_seg, git_odb_object_data, git_odb_object_size, hd]

theorem hit_state_inv (o : git_odb_object) : (hit_state o).Inv := by
  obtain ⟨_, h2, h3⟩ := hdr_seg_length o
  refine ⟨rfl, Nat.le_refl _, ?_, Or.inr ?_⟩
  · intro v hv
    simp only [WState.request, hit_state, hit_vec, CAPA, Nat.sub_self, List.drop_zero,
      List.take_succ_cons, List.take_zero, List.mem_cons, List.mem_singleton,
      List.not_mem_nil, or_false] at hv
    rcases hv with rfl | rfl | rfl
    · simp only [iovec.wf]
      omega
    · simp only [iovec.wf, git_odb_object_data, git_odb_object_size, o.size_eq]
      omega
    · simp [iovec.wf, trailer]
  · rw [hit_state_pending]
    simp [record]

theorem cat_oid_hit {odb : git_odb} {s : List Byte} {o : git_odb_object} (h : Hit odb s o)
    (ws : List WriteResult) :
    cat_oid odb ws s = (write_loop ws (hit_state o)).map (finish GIT_OK (some o)) := by
  unfold cat_oid
  simp only [h.1, if_true, h.2]

theorem cat_oid_miss {odb : git_odb} {s : List Byte} (h : Miss odb s) (ws : List WriteResult) :
    cat_oid odb ws s = some miss_result := by
  have hl : write_loop ws miss_state = some miss_state :=
    write_loop_done ws miss_state (by simp [miss_state])
  unfold cat_oid
  rcases h with h | ⟨rc, hrc, h⟩
  · simp only [h, if_false, hl, Option.map_some']
    simp [finish, miss_state, miss_result, h]
  · by_cases hp : (git_oid_fromstrn s).1 = GIT_OK
    · simp only [hp, if_true, h, hl, Option.map_some']
      simp [finish, miss_state, miss_result, hrc]
    · simp only [hp, if_false, hl, Option.map_some']
      simp [finish, miss_state, miss_result, hp]

theorem hit_or_miss (odb : git_odb) (s : List Byte) : (∃ o, Hit odb s o) ∨ Miss odb s := by
  by_cases hp : (git_oid_fromstrn s).1 = GIT_OK
  · cases hr : git_odb_read odb (git_oid_fromstrn s).2 with
    | found o => exact Or.inl ⟨o, hp, hr⟩
    | error rc h => exact Or.inr (Or.inr ⟨rc, h, hr⟩)
  · exact Or.inr (Or.inl hp)

theorem hit_not_miss {odb : git_odb} {s : List Byte} {o : git_odb_object} (h : Hit odb s o) :
    ¬ Miss odb s := by
  rintro (hm | ⟨rc, hrc, hm⟩)
  · exact hm h.1
  · rw [h.2] at hm
    cases hm

theorem hit_unique {odb : git_odb} {s : List Byte} {o o' : git_odb_object} (h : Hit odb s o)
    (h' : Hit odb s o') : o = o' := by
  have := h.2.symm.trans h'.2
  cases this
  rfl

/-! ## After the loop -/

theorem finish_fields (rc : Int) (obj : Option git_odb_object) (st : WState) :
    (finish rc obj st).st.fd = st.fd ∧ (finish rc obj st).st.vec = st.vec ∧
    (finish rc obj st).st.nvec = st.nvec ∧ (finish rc obj st).st.err = st.err := by
  unfold finish
  split_ifs <;> exact ⟨rfl, rfl, rfl, rfl⟩

theorem finish_exit (rc : Int) (obj : Option git_odb_object) (st : WState) :
    (finish rc obj st).exit =
      if st.err ≠ 0 then .croaked st.err else .returned (decide (rc = GIT_OK)) := by
  unfold finish
  split_ifs <;> rfl

theorem finish_trace_some (rc : Int) (o : git_odb_object) (st : WState) :
    (finish rc (some o) st).st.trace = st.trace ++ [Event.git_odb_object_free o,
      if st.err ≠ 0 then Event.croak st.err else Event.ret (decide (rc = GIT_OK))] := by
  unfold finish
  split_ifs <;> simp

theorem pending_of_nvec_zero {st : WState} (h : st.nvec = 0) : st.pending = [] := by
  simp [WState.pending, WState.request, h, iov_bytes]

/-- On a hit, a finished call is a finished loop followed by `finish`. -/
theorem cat_oid_hit_some {odb : git_odb} {s : List Byte} {o : git_odb_object}
    (h : Hit odb s o) {ws : List WriteResult} {res : Result}
    (hr : cat_oid odb ws s = some res) :
    ∃ st', write_loop ws (hit_state o) = some st' ∧ res = finish GIT_OK (some o) st' := by
  rw [cat_oid_hit h, Option.map_eq_some'] at hr
  obtain ⟨st', h1, h2⟩ := hr
  exact ⟨st', h1, h2.symm⟩

/-! ## Claims -/

/-- C1: on a hit, for every sequence of write outcomes made only of positive
partial counts (each at most the bytes still pending), would-block results and
interrupted results, a call that returns returns true and the descriptor has
accepted exactly header ++ payload ++ newline, of length
len(header) + len(payload) + 1, however the partial writes were split; and the
call does return once the counts add up to the record length. -/
theorem cat_oid_benign_writes_record (odb : git_odb) (s : List Byte) (o : git_odb_object)
    (ws : List WriteResult) (hit : Hit odb s o)
    (hb : benign ws (record o).length = true) :
    (∀ res, cat_oid odb ws s = some res →
      res.exit = .returned true ∧
      res.st.fd = hdr_seg o ++ git_odb_object_data o ++ ['\n'] ∧
      res.st.fd.length = (hdr_seg o).length + git_odb_object_size o + 1) ∧
    ((record o).length ≤ counted ws → ∃ res, cat_oid odb ws s = some res) := by
  have hI := hit_state_inv o
  have hp := hit_state_pending o
  rw [← hp] at hb
  obtain ⟨k1, k2⟩ := write_loop_benign ws (hit_state o) hI rfl hb
  constructor
  · intro res hr
    obtain ⟨st', h1, rfl⟩ := cat_oid_hit_some hit hr
    have he := k1 st' h1
    obtain ⟨_, j2, j3⟩ := write_loop_inv ws _ st' hI h1
    have hz : st'.nvec = 0 := by
      rcases j3 with h | h
      · exact h
      · exact absurd he h
    rw [pending_of_nvec_zero hz, List.append_nil, hp] at j2
    have hfd : (finish GIT_OK (some o) st').st.fd = record o := by
      rw [(finish_fields _ _ _).1, j2]
      rfl
    refine ⟨?_, hfd, ?_⟩
    · rw [finish_exit]
      simp [he]
    · rw [hfd]
      simp only [record, git_odb_object_data, git_odb_object_size, List.length_append,
        o.size_eq, List.length_cons, List.length_nil]
  · intro hle
    rw [← hp] at hle
    obtain ⟨st', h1⟩ := k2 hle
    exact ⟨finish GIT_OK (some o) st', by rw [cat_oid_hit hit, h1]; rfl⟩

theorem cat_oid_benign_writes_record_witness :
    Hit emptyBlobStore emptyBlobId emptyBlob ∧
    benign sampleWrites (record emptyBlob).length = true ∧
    ((∀ res, cat_oid emptyBlobStore sampleWrites emptyBlobId = some res →
      res.exit = .returned true ∧
      res.st.fd = hdr_seg emptyBlob ++ git_odb_object_data emptyBlob ++ ['\n'] ∧
      res.st.fd.length = (hdr_seg emptyBlob).length + git_odb_object_size emptyBlob + 1) ∧
    ((record emptyBlob).length ≤ counted sampleWrites →
      ∃ res, cat_oid emptyBlobStore sampleWrites emptyBlobId = some res)) :=
  ⟨⟨by decide, rfl⟩, by decide,
    cat_oid_benign_writes_record emptyBlobStore emptyBlobId emptyBlob sampleWrites
      ⟨by decide, rfl⟩ (by decide)⟩

/-- Where the formatted tail fits in front of the NUL, the header segment is
the lowercase hex identifier, a space, the type name, a space, the decimal size
and a newline. -/
theorem hdr_seg_exact (o : git_odb_object)
    (h : (fmt_tail (git_object_type2string (git_odb_object_type o))
      (git_odb_object_size o)).length < SIZEOF_TAIL) :
    hdr_seg o = git_oid_nfmt GIT_OID_HEXSZ (git_odb_object_id o) ++ [' '] ++
      git_object_type2string (git_odb_object_type o) ++ [' '] ++
      Nat.toDigits 10 (git_odb_object_size o) ++ ['\n'] := by
  rw [hdr_seg_eq, if_pos h]
  simp [fmt_tail]

/-- The concrete scenario: the empty blob, written in one call. -/
theorem cat_oid_emptyBlob :
    (cat_oid emptyBlobStore [.count 49] emptyBlobId).map
        (fun r => (r.exit, r.st.fd, r.st.fd.length)) =
      some (.returned true, "e69de29bb2d1d6434b8b29ae775ad8c2e48c5391 blob 0\n\n".toList, 49) := by
  decide

/-! ### Parsing the identifier -/

theorem fromstrn_loop_none {s : List Byte} (h : ∃ c ∈ s, git__fromhex c < 0) :
    fromstrn_loop s = none := by
  induction s with
  | nil => simp at h
  | cons c cs ih =>
    unfold fromstrn_loop
    by_cases hc : git__fromhex c < 0
    · rw [if_pos hc]
    · rw [if_neg hc]
      obtain ⟨x, hx, hlt⟩ := h
      rcases List.mem_cons.mp hx with rfl | hx
      · exact absurd hlt hc
      · rw [ih ⟨x, hx, hlt⟩]
        rfl

theorem fromstrn_loop_append {a b : List Byte} {x y : List Nat}
    (ha : fromstrn_loop a = some x) (hb : fromstrn_loop b = some y) :
    fromstrn_loop (a ++ b) = some (x ++ y) := by
  induction a generalizing x with
  | nil =>
    simp only [fromstrn_loop, Option.some.injEq] at ha
    subst ha
    simpa using hb
  | cons c cs ih =>
    rw [List.cons_append]
    unfold fromstrn_loop at ha ⊢
    by_cases hc : git__fromhex c < 0
    · rw [if_pos hc] at ha
      cases ha
    · rw [if_neg hc] at ha ⊢
      cases hcs : fromstrn_loop cs with
      | none =>
        rw [hcs] at ha
        cases ha
      | some x' =>
        rw [hcs] at ha
        simp only [Option.map_some', Option.some.injEq] at ha
        subst ha
        rw [ih hcs]
        rfl

theorem fromstrn_loop_some {s : List Byte} (h : ∀ c ∈ s, 0 ≤ git__fromhex c) :
    ∃ ns, fromstrn_loop s = some ns := by
  induction s with
  | nil => exact ⟨[], rfl⟩
  | cons c cs ih =>
    obtain ⟨ns, hns⟩ := ih (fun x hx => h x (List.mem_cons_of_mem _ hx))
    have hc : ¬ git__fromhex c < 0 := by
      have := h c (List.mem_cons_self _ _)
      omega
    refine ⟨(git__fromhex c).toNat :: ns, ?_⟩
    unfold fromstrn_loop
    rw [if_neg hc, hns]
    rfl

theorem fromstrn_loop_length {s : List Byte} {ns : List Nat} (h : fromstrn_loop s = some ns) :
    ns.length = s.length := by
  induction s generalizing ns with
  | nil =>
    simp only [fromstrn_loop, Option.some.injEq] at h
    subst h
    rfl
  | cons c cs ih =>
    unfold fromstrn_loop at h
    by_cases hc : git__fromhex c < 0
    · rw [if_pos hc] at h
      cases h
    · rw [if_neg hc] at h
      cases hcs : fromstrn_loop cs with
      | none =>
        rw [hcs] at h
        cases h
      | some x' =>
        rw [hcs] at h
        simp only [Option.map_some', Option.some.injEq] at h
        subst h
        simp [ih hcs]

theorem fromstrn_loop_zeros (k : Nat) :
    fromstrn_loop (List.replicate k '0') = some (List.replicate k 0) := by
  induction k with
  | zero => rfl
  | succ k ih =>
    rw [List.replicate_succ]
    unfold fromstrn_loop
    have h0 : ¬ git__fromhex '0' < 0 := by decide
    rw [if_neg h0, ih]
    rfl

/-- An empty, over-long or non-hex identifier does not parse. -/
theorem git_oid_fromstrn_reject {s : List Byte}
    (h : s.length = 0 ∨ GIT_OID_HEXSZ < s.length ∨ ∃ c ∈ s, git__fromhex c < 0) :
    (git_oid_fromstrn s).1 ≠ GIT_OK := by
  unfold git_oid_fromstrn
  by_cases h0 : s.length = 0
  · rw [if_pos h0]
    decide
  · rw [if_neg h0]
    by_cases h1 : s.length > GIT_OID_HEXSZ
    · rw [if_pos h1]
      decide
    · rw [if_neg h1]
      rcases h with h | h | h
      · exact absurd h h0
      · exact absurd h h1
      · rw [fromstrn_loop_none h]
        show ((-1 : Int), ([] : git_oid)).1 ≠ GIT_OK
        decide

/-- A shorter all-hex identifier parses to the same oid as the identifier
zero-padded to full width. -/
theorem git_oid_fromstrn_zero_pad {s : List Byte} (h0 : 0 < s.length)
    (h1 : s.length < GIT_OID_HEXSZ) (hx : ∀ c ∈ s, 0 ≤ git__fromhex c) :
    git_oid_fromstrn s = git_oid_fromstrn (zero_pad s) ∧ (git_oid_fromstrn s).1 = GIT_OK ∧
    (zero_pad s).length = GIT_OID_HEXSZ := by
  obtain ⟨ns, hns⟩ := fromstrn_loop_some hx
  have hp := fromstrn_loop_append hns (fromstrn_loop_zeros (GIT_OID_HEXSZ - s.length))
  have hl : (zero_pad s).length = GIT_OID_HEXSZ := by
    simp only [zero_pad, List.length_append, List.length_replicate]
    omega
  have e1 : git_oid_fromstrn s =
      (GIT_OK, ns ++ List.replicate (GIT_OID_HEXSZ - s.length) 0) := by
    unfold git_oid_fromstrn
    rw [if_neg (by omega), if_neg (by omega), hns]
  have e2 : git_oid_fromstrn (zero_pad s) =
      (GIT_OK, ns ++ List.replicate (GIT_OID_HEXSZ - s.length) 0) := by
    unfold git_oid_fromstrn
    rw [if_neg (by omega), if_neg (by omega)]
    unfold zero_pad at hl ⊢
    rw [hp, hl]
    simp
  exact ⟨e1.trans e2.symm, by rw [e1], hl⟩

/-- C3 (as stated, refuted): the 39-character identifier
b4de3947675361a7770d29b8982c407b0ec6b2a is not of the exact hex width, yet
against a store holding the blob b4de3947675361a7770d29b8982c407b0ec6b2a0
cat_oid returns true after one write call that delivers the whole record. -/
theorem cat_oid_short_id_hit :
    blob11ShortId.length ≠ GIT_OID_HEXSZ ∧
    (cat_oid blob11Store [.count 52] blob11ShortId).map
        (fun r => (r.exit, r.st.fd, num_writev r.st.trace)) =
      some (.returned true,
        "b4de3947675361a7770d29b8982c407b0ec6b2a0 blob 3\n11\n\n".toList, 1) := by
  decide

/-- C3 (amended): an identifier that is empty, longer than the hex width or
contains a non-hex character makes cat_oid return false with zero write calls
and nothing on the descriptor, whatever the store holds; a shorter all-hex
identifier is zero-padded on the right to the full width and the call is
exactly the call on that padded identifier, an exact lookup and never a prefix
search. -/
theorem cat_oid_malformed (odb : git_odb) (ws : List WriteResult) (s : List Byte)
    (h : s.length ≠ GIT_OID_HEXSZ ∨ ∃ c ∈ s, git__fromhex c < 0) :
    ((s.length = 0 ∨ GIT_OID_HEXSZ < s.length ∨ ∃ c ∈ s, git__fromhex c < 0) ∧
      ∃ res, cat_oid odb ws s = some res ∧ res.exit = .returned false ∧
        num_writev res.st.trace = 0 ∧ res.st.fd = []) ∨
    ((0 < s.length ∧ s.length < GIT_OID_HEXSZ ∧ ∀ c ∈ s, 0 ≤ git__fromhex c) ∧
      (zero_pad s).length = GIT_OID_HEXSZ ∧
      git_oid_fromstrn s = git_oid_fromstrn (zero_pad s) ∧
      cat_oid odb ws s = cat_oid odb ws (zero_pad s)) := by
  by_cases hr : s.length = 0 ∨ GIT_OID_HEXSZ < s.length ∨ ∃ c ∈ s, git__fromhex c < 0
  · left
    refine ⟨hr, miss_result, cat_oid_miss (Or.inl (git_oid_fromstrn_reject hr)) ws, rfl, rfl, rfl⟩
  · right
    have h0 : 0 < s.length := by
      rcases Nat.eq_zero_or_pos s.length with h0 | h0
      · exact absurd (Or.inl h0) hr
      · exact h0
    have hx : ∀ c ∈ s, 0 ≤ git__fromhex c := by
      intro c hc
      by_contra hneg
      exact hr (Or.inr (Or.inr ⟨c, hc, by omega⟩))
    have h1 : s.length < GIT_OID_HEXSZ := by
      rcases h with h | ⟨c, hc, hlt⟩
      · by_contra hge
        exact hr (Or.inr (Or.inl (by omega)))
      · have := hx c hc
        omega
    obtain ⟨e1, _, e3⟩ := git_oid_fromstrn_zero_pad h0 h1 hx
    refine ⟨⟨h0, h1, hx⟩, e3, e1, ?_⟩
    unfold cat_oid
    rw [e1]

theorem cat_oid_malformed_witness :
    (blob11ShortId.length ≠ GIT_OID_HEXSZ ∨ ∃ c ∈ blob11ShortId, git__fromhex c < 0) ∧
    (((blob11ShortId.length = 0 ∨ GIT_OID_HEXSZ < blob11ShortId.length ∨
        ∃ c ∈ blob11ShortId, git__fromhex c < 0) ∧
      ∃ res, cat_oid blob11Store [.count 52] blob11ShortId = some res ∧
        res.exit = .returned false ∧ num_writev res.st.trace = 0 ∧ res.st.fd = []) ∨
    ((0 < blob11ShortId.length ∧ blob11ShortId.length < GIT_OID_HEXSZ ∧
        ∀ c ∈ blob11ShortId, 0 ≤ git__fromhex c) ∧
      (zero_pad blob11ShortId).length = GIT_OID_HEXSZ ∧
      git_oid_fromstrn blob11ShortId = git_oid_fromstrn (zero_pad blob11ShortId) ∧
      cat_oid blob11Store [.count 52] blob11ShortId =
        cat_oid blob11Store [.count 52] (zero_pad blob11ShortId))) :=
  ⟨Or.inl (by decide),
    cat_oid_malformed blob11Store [.count 52] blob11ShortId (Or.inl (by decide))⟩

/-- C4: for an identifier that parses, when the store lookup reports any
status other than GIT_OK, cat_oid leaves the pending segment count at zero,
performs no write call, puts nothing on the descriptor, raises nothing and
returns false. -/
theorem cat_oid_not_found (odb : git_odb) (ws : List WriteResult) (s : List Byte) (rc : Int)
    (hrc : rc ≠ GIT_OK) (hp : (git_oid_fromstrn s).1 = GIT_OK)
    (hm : git_odb_read odb (git_oid_fromstrn s).2 = .error rc hrc) :
    ∃ res, cat_oid odb ws s = some res ∧ res.st.nvec = 0 ∧
      num_writev res.st.trace = 0 ∧ res.st.fd = [] ∧ res.st.err = 0 ∧
      res.exit = .returned false ∧ res.st.trace = [Event.ret false] := by
  have hl : write_loop ws miss_state = some miss_state :=
    write_loop_done ws miss_state (by simp [miss_state])
  refine ⟨miss_result, ?_, rfl, rfl, rfl, rfl, rfl, rfl⟩
  unfold cat_oid
  simp only [hp, if_true, hm, hl, Option.map_some']
  simp [finish, miss_state, miss_result, hrc]

theorem cat_oid_not_found_witness :
    (git_oid_fromstrn blob11Id).1 = GIT_OK ∧
    git_odb_read emptyBlobStore (git_oid_fromstrn blob11Id).2 = .error (-3) (by decide) ∧
    ∃ res, cat_oid emptyBlobStore sampleWrites blob11Id = some res ∧ res.st.nvec = 0 ∧
      num_writev res.st.trace = 0 ∧ res.st.fd = [] ∧ res.st.err = 0 ∧
      res.exit = .returned false ∧ res.st.trace = [Event.ret false] :=
  ⟨by decide, rfl,
    cat_oid_not_found emptyBlobStore sampleWrites blob11Id (-3) (by decide) (by decide) rfl⟩

/-- C5: a call that ends has one of three outcomes.  It returns true only on a
hit with no segment pending and the whole record on the descriptor; it returns
false only on a miss, with no write call made and nothing written; it raises
only on a hit, after a write call, with a non-zero error; and on a hit a set
error flag always raises instead of returning. -/
theorem cat_oid_trichotomy (odb : git_odb) (ws : List WriteResult) (s : List Byte)
    (res : Result) (hr : cat_oid odb ws s = some res) :
    (res.exit = .returned true →
      ∃ o, Hit odb s o ∧ res.st.nvec = 0 ∧ res.st.pending = [] ∧ res.st.fd = record o) ∧
    (res.exit = .returned false →
      Miss odb s ∧ num_writev res.st.trace = 0 ∧ res.st.fd = []) ∧
    (∀ e, res.exit = .croaked e →
      e ≠ 0 ∧ 0 < num_writev res.st.trace ∧ ∃ o, Hit odb s o) ∧
    (∀ o, Hit odb s o → res.st.err ≠ 0 → res.exit = .croaked res.st.err) := by
  rcases hit_or_miss odb s with ⟨o, hit⟩ | hmiss
  · obtain ⟨st', h1, rfl⟩ := cat_oid_hit_some hit hr
    obtain ⟨_, j2, j3⟩ := write_loop_inv ws _ st' (hit_state_inv o) h1
    obtain ⟨used, rest, _, f2, f3⟩ := write_loop_fatal ws _ st' rfl h1
    obtain ⟨g1, _, g3, g4⟩ := finish_fields GIT_OK (some o) st'
    have hx := finish_exit GIT_OK (some o) st'
    have hnw : num_writev (finish GIT_OK (some o) st').st.trace = used.length := by
      rw [finish_trace_some, num_writev_append, f2]
      split_ifs <;> simp [num_writev, hit_state]
    by_cases he : st'.err = 0
    · have hz : st'.nvec = 0 := by
        rcases j3 with h | h
        · exact h
        · exact absurd he h
      rw [if_neg (by simpa using he)] at hx
      refine ⟨fun _ => ⟨o, hit, ?_, ?_, ?_⟩, ?_, ?_, ?_⟩
      · rw [g3, hz]
      · exact pending_of_nvec_zero (by rw [g3, hz])
      · rw [pending_of_nvec_zero hz, List.append_nil, hit_state_pending] at j2
        rw [g1, j2]
        rfl
      · intro hf
        rw [hx] at hf
        simp at hf
      · intro e hc
        rw [hx] at hc
        cases hc
      · intro _ _ hne
        rw [g4] at hne
        exact absurd he hne
    · rw [if_pos he] at hx
      refine ⟨?_, ?_, ?_, ?_⟩
      · intro hf
        rw [hx] at hf
        cases hf
      · intro hf
        rw [hx] at hf
        cases hf
      · intro e hc
        rw [hx] at hc
        cases hc
        refine ⟨he, ?_, o, hit⟩
        rw [hnw]
        rcases f3 with ⟨h0, _⟩ | ⟨pre, r, hu, _⟩
        · exact absurd h0 he
        · rw [hu]
          simp
      · intro _ _ _
        rw [hx, g4]
  · rw [cat_oid_miss hmiss] at hr
    cases hr
    refine ⟨?_, fun _ => ⟨hmiss, rfl, rfl⟩, ?_, ?_⟩
    · intro hf
      cases hf
    · intro e hc
      cases hc
    · intro o hit
      exact absurd hmiss (hit_not_miss hit)

theorem cat_oid_trichotomy_witness :
    ∃ res, cat_oid emptyBlobStore failingWrites emptyBlobId = some res ∧
      res.exit = .croaked ENOSPC ∧
      ((res.exit = .returned true →
        ∃ o, Hit emptyBlobStore emptyBlobId o ∧ res.st.nvec = 0 ∧ res.st.pending = [] ∧
          res.st.fd = record o) ∧
      (res.exit = .returned false →
        Miss emptyBlobStore emptyBlobId ∧ num_writev res.st.trace = 0 ∧ res.st.fd = []) ∧
      (∀ e, res.exit = .croaked e →
        e ≠ 0 ∧ 0 < num_writev res.st.trace ∧ ∃ o, Hit emptyBlobStore emptyBlobId o) ∧
      (∀ o, Hit emptyBlobStore emptyBlobId o → res.st.err ≠ 0 →
        res.exit = .croaked res.st.err)) := by
  obtain ⟨res, h, he⟩ := Option.map_eq_some'.mp
    (show (cat_oid emptyBlobStore failingWrites emptyBlobId).map Result.exit
      = some (.croaked ENOSPC) from by decide)
  exact ⟨res, h, he, cat_oid_trichotomy emptyBlobStore failingWrites emptyBlobId res h⟩

/-- C6: on a hit, the outcomes the call consumed are a prefix of the given
ones, one per write call.  The call raises exactly when the last write call it
made returned zero bytes (error ENOSPC) or an error other than would-block or
interrupted (that error), no earlier write having done so, and then the raised
error is that error and no further write is attempted; when no consumed outcome
is such a failure the call does not raise and returns true. -/
theorem cat_oid_fails_exactly (odb : git_odb) (ws : List WriteResult) (s : List Byte)
    (o : git_odb_object) (res : Result) (hit : Hit odb s o)
    (hr : cat_oid odb ws s = some res) :
    ∃ used rest, ws = used ++ rest ∧ num_writev res.st.trace = used.length ∧
      ((res.exit = .returned true ∧ ∀ r ∈ used, spec_fatal r = none) ∨
       (∃ pre r e, used = pre ++ [r] ∧ (∀ x ∈ pre, spec_fatal x = none) ∧
          spec_fatal r = some e ∧ res.exit = .croaked e)) := by
  obtain ⟨st', h1, rfl⟩ := cat_oid_hit_some hit hr
  obtain ⟨used, rest, f1, f2, f3⟩ := write_loop_fatal ws _ st' rfl h1
  have hx := finish_exit GIT_OK (some o) st'
  refine ⟨used, rest, f1, ?_, ?_⟩
  · rw [finish_trace_some, num_writev_append, f2]
    split_ifs <;> simp [num_writev, hit_state]
  · rcases f3 with ⟨h0, hall⟩ | ⟨pre, r, hu, hpre, hf, hne⟩
    · left
      refine ⟨?_, hall⟩
      rw [hx, if_neg (by simpa using h0)]
      simp
    · right
      refine ⟨pre, r, st'.err, hu, hpre, hf, ?_⟩
      rw [hx, if_pos hne]

theorem cat_oid_fails_exactly_witness :
    Hit emptyBlobStore emptyBlobId emptyBlob ∧
    ∃ res, cat_oid emptyBlobStore failingWrites emptyBlobId = some res ∧
      ∃ used rest, failingWrites = used ++ rest ∧ num_writev res.st.trace = used.length ∧
        ((res.exit = .returned true ∧ ∀ r ∈ used, spec_fatal r = none) ∨
         (∃ pre r e, used = pre ++ [r] ∧ (∀ x ∈ pre, spec_fatal x = none) ∧
            spec_fatal r = some e ∧ res.exit = .croaked e)) := by
  obtain ⟨res, h⟩ := Option.isSome_iff_exists.mp
    (show (cat_oid emptyBlobStore failingWrites emptyBlobId).isSome = true from by decide)
  exact ⟨⟨by decide, rfl⟩, res, h,
    cat_oid_fails_exactly emptyBlobStore failingWrites emptyBlobId emptyBlob res
      ⟨by decide, rfl⟩ h⟩

/-- C7: whenever cat_oid raises on a hit, the bytes the descriptor accepted
before the failure are a prefix of header ++ payload ++ newline, and together
with the bytes still pending they are exactly that record: no byte was written
twice or out of order. -/
theorem cat_oid_croak_initial_segment (odb : git_odb) (ws : List WriteResult) (s : List Byte)
    (o : git_odb_object) (res : Result) (e : Nat) (hit : Hit odb s o)
    (hr : cat_oid odb ws s = some res) (hc : res.exit = .croaked e) :
    res.st.fd <+: hdr_seg o ++ git_odb_object_data o ++ ['\n'] ∧
    res.st.fd ++ res.st.pending = hdr_seg o ++ git_odb_object_data o ++ ['\n'] := by
  obtain ⟨st', h1, rfl⟩ := cat_oid_hit_some hit hr
  obtain ⟨_, j2, _⟩ := write_loop_inv ws _ st' (hit_state_inv o) h1
  obtain ⟨g1, g2, g3, _⟩ := finish_fields GIT_OK (some o) st'
  have hp : (finish GIT_OK (some o) st').st.pending = st'.pending := by
    unfold WState.pending WState.request
    rw [g2, g3]
  rw [hit_state_pending] at j2
  have hfull : (finish GIT_OK (some o) st').st.fd ++ (finish GIT_OK (some o) st').st.pending
      = hdr_seg o ++ git_odb_object_data o ++ ['\n'] := by
    rw [g1, hp, j2]
    rfl
  exact ⟨⟨_, hfull⟩, hfull⟩

theorem cat_oid_croak_initial_segment_witness :
    Hit emptyBlobStore emptyBlobId emptyBlob ∧
    ∃ res, cat_oid emptyBlobStore failingWrites emptyBlobId = some res ∧
      res.exit = .croaked ENOSPC ∧
      res.st.fd <+: hdr_seg emptyBlob ++ git_odb_object_data emptyBlob ++ ['\n'] ∧
      res.st.fd ++ res.st.pending =
        hdr_seg emptyBlob ++ git_odb_object_data emptyBlob ++ ['\n'] := by
  obtain ⟨res, h, he⟩ := Option.map_eq_some'.mp
    (show (cat_oid emptyBlobStore failingWrites emptyBlobId).map Result.exit
      = some (.croaked ENOSPC) from by decide)
  exact ⟨⟨by decide, rfl⟩, res, h, he,
    cat_oid_croak_initial_segment emptyBlobStore failingWrites emptyBlobId emptyBlob res ENOSPC
      ⟨by decide, rfl⟩ h he⟩

/-- C8: when a write reports would-block or interrupted, `vec` and `nvec` (so
every pending segment's start and length), the bytes on the descriptor and the
next request are unchanged and the error flag is clear; the only actions are
the `writev` itself, followed by `poll` in the would-block case and by nothing
in the interrupted case; and, the loop having been running, the next iteration
issues `writev` on exactly the same segments. -/
theorem write_step_retry (st : WState) (e : Errno) (he : e.val = EAGAIN ∨ e.val = EINTR) :
    (write_step (.error e) st).vec = st.vec ∧
    (write_step (.error e) st).nvec = st.nvec ∧
    (write_step (.error e) st).err = 0 ∧
    (write_step (.error e) st).fd = st.fd ∧
    (write_step (.error e) st).request = st.request ∧
    (write_step (.error e) st).trace =
      st.trace ++ Event.writev st.request :: (if e.val = EAGAIN then [Event.poll] else []) ∧
    (st.nvec ≠ 0 → ∀ r rs,
      write_loop (r :: rs) (write_step (.error e) st)
        = write_loop rs (write_step r (write_step (.error e) st)) ∧
      ∃ T, (write_step r (write_step (.error e) st)).trace =
        (st.trace ++ Event.writev st.request :: (if e.val = EAGAIN then [Event.poll] else []))
          ++ Event.writev st.request :: T) := by
  have hs : write_step (.error e) st =
      { st with err := 0, trace := st.trace ++ Event.writev st.request ::
        (if e.val = EAGAIN then [Event.poll] else []) } := by
    rw [write_step_error]
    by_cases h1 : e.val = EAGAIN
    · rw [if_pos h1, if_pos h1]
    · have h2 : e.val = EINTR := by
        rcases he with h | h
        · exact absurd h h1
        · exact h
      rw [if_neg h1, if_pos h2, if_neg h1]
  rw [hs]
  refine ⟨rfl, rfl, rfl, rfl, rfl, rfl, fun hn r rs => ⟨?_, ?_⟩⟩
  · exact write_loop_cons r rs _ ⟨hn, rfl⟩
  · obtain ⟨T, hT, _⟩ := write_step_trace r
      { st with err := 0, trace := st.trace ++ Event.writev st.request ::
        (if e.val = EAGAIN then [Event.poll] else []) }
    exact ⟨T, hT⟩

theorem write_step_retry_witness :
    ((⟨EAGAIN, by decide⟩ : Errno).val = EAGAIN ∨ (⟨EAGAIN, by decide⟩ : Errno).val = EINTR) ∧
    (write_step (.error ⟨EAGAIN, by decide⟩) (hit_state emptyBlob)).nvec = 3 ∧
    (write_step (.error ⟨EAGAIN, by decide⟩) (hit_state emptyBlob)).request
      = (hit_state emptyBlob).request ∧
    (write_step (.error ⟨EAGAIN, by decide⟩) (hit_state emptyBlob)).trace
      = [Event.writev (hit_state emptyBlob).request, Event.poll] :=
  have h := write_step_retry (hit_state emptyBlob) ⟨EAGAIN, by decide⟩ (Or.inl rfl)
  ⟨Or.inl rfl, h.2.1, h.2.2.2.2.1, h.2.2.2.2.2.1⟩

theorem num_free_append (a b : List Event) :
    num_free (a ++ b) = num_free a + num_free b := by
  induction a with
  | nil => simp [num_free]
  | cons e a ih =>
    rw [List.cons_append]
    cases e
    all_goals simp only [num_free, ih]
    omega

theorem num_free_loopIO {T : List Event} (h : ∀ e ∈ T, e.isLoopIO = true) : num_free T = 0 := by
  induction T with
  | nil => rfl
  | cons e T ih =>
    have he := h e (List.mem_cons_self _ _)
    have hT := ih (fun x hx => h x (List.mem_cons_of_mem _ hx))
    cases e
    all_goals first
      | (simpa only [num_free] using hT)
      | (simp [Event.isLoopIO] at he)

/-- C9: in every call that ends, if the lookup produced an object the trace is
the loop's `writev` and `poll` actions, then one `git_odb_object_free` of that
object, then the return or the croak: the object is released exactly once,
after the last write attempt and before the call returns or raises, also when
the loop failed; if no object was produced nothing is released. -/
theorem cat_oid_free_once (odb : git_odb) (ws : List WriteResult) (s : List Byte)
    (res : Result) (hr : cat_oid odb ws s = some res) :
    (∀ o, Hit odb s o →
      ∃ T, res.st.trace = T ++ [Event.git_odb_object_free o, exit_event res.exit] ∧
        (∀ e ∈ T, e.isLoopIO = true) ∧ num_writev T = num_writev res.st.trace ∧
        num_free res.st.trace = 1) ∧
    (Miss odb s → num_free res.st.trace = 0 ∧ res.st.trace = [exit_event res.exit]) := by
  constructor
  · intro o hit
    obtain ⟨st', h1, rfl⟩ := cat_oid_hit_some hit hr
    obtain ⟨T, hT, hio⟩ := write_loop_trace ws _ st' h1
    have ht : st'.trace = T := by rw [hT]; rfl
    have hx := finish_exit GIT_OK (some o) st'
    have hfin : (if st'.err ≠ 0 then Event.croak st'.err
        else Event.ret (decide (GIT_OK = GIT_OK)))
          = exit_event (finish GIT_OK (some o) st').exit := by
      rw [hx]
      split_ifs <;> rfl
    have htr : (finish GIT_OK (some o) st').st.trace =
        T ++ [Event.git_odb_object_free o, exit_event (finish GIT_OK (some o) st').exit] := by
      rw [finish_trace_some, ht, hfin]
    refine ⟨T, htr, hio, ?_, ?_⟩
    · rw [htr, num_writev_append]
      cases (finish GIT_OK (some o) st').exit <;> simp [num_writev, exit_event]
    · rw [htr, num_free_append, num_free_loopIO hio]
      cases (finish GIT_OK (some o) st').exit <;> simp [num_free, exit_event]
  · intro hmiss
    rw [cat_oid_miss hmiss] at hr
    cases hr
    exact ⟨rfl, rfl⟩

theorem cat_oid_free_once_witness :
    ∃ res, cat_oid emptyBlobStore failingWrites emptyBlobId = some res ∧
      ((∀ o, Hit emptyBlobStore emptyBlobId o →
        ∃ T, res.st.trace = T ++ [Event.git_odb_object_free o, exit_event res.exit] ∧
          (∀ e ∈ T, e.isLoopIO = true) ∧ num_writev T = num_writev res.st.trace ∧
          num_free res.st.trace = 1) ∧
      (Miss emptyBlobStore emptyBlobId →
        num_free res.st.trace = 0 ∧ res.st.trace = [exit_event res.exit])) := by
  obtain ⟨res, h⟩ := Option.isSome_iff_exists.mp
    (show (cat_oid emptyBlobStore failingWrites emptyBlobId).isSome = true from by decide)
  exact ⟨res, h, cat_oid_free_once emptyBlobStore failingWrites emptyBlobId res h⟩

/-- On a hit and under benign outcomes whose counts reach the record length,
the call returns true with exactly the record on the descriptor. -/
theorem cat_oid_benign_total {odb : git_odb} {s : List Byte} {o : git_odb_object}
    (hit : Hit odb s o) {ws : List WriteResult} (hb : benign ws (record o).length = true)
    (hn : (record o).length ≤ counted ws) :
    ∃ res, cat_oid odb ws s = some res ∧ res.exit = .returned true ∧
      res.st.fd = record o := by
  have hI := hit_state_inv o
  have hp := hit_state_pending o
  rw [← hp] at hb hn
  obtain ⟨k1, k2⟩ := write_loop_benign ws (hit_state o) hI rfl hb
  obtain ⟨st', h1⟩ := k2 hn
  have he := k1 st' h1
  obtain ⟨_, j2, j3⟩ := write_loop_inv ws _ st' hI h1
  have hz : st'.nvec = 0 := by
    rcases j3 with h | h
    · exact h
    · exact absurd he h
  rw [pending_of_nvec_zero hz, List.append_nil, hp] at j2
  refine ⟨finish GIT_OK (some o) st', by rw [cat_oid_hit hit, h1]; rfl, ?_, ?_⟩
  · rw [finish_exit]
    simp [he]
  · rw [(finish_fields _ _ _).1, j2]
    rfl

theorem one_byte_benign : ∀ (ws : List WriteResult), one_byte ws = true →
    ∀ p, benign ws p = true
  | [], _, _ => rfl
  | .count n :: rs, h, p => by
    simp only [one_byte, Bool.and_eq_true, decide_eq_true_eq] at h
    obtain ⟨hn, hrs⟩ := h
    subst hn
    unfold benign
    by_cases hp : p = 0
    · rw [if_pos hp]
    · rw [if_neg hp, if_pos ⟨Nat.one_pos, by omega⟩]
      exact one_byte_benign rs hrs _
  | .error e :: rs, h, p => by
    simp only [one_byte, Bool.and_eq_true, Bool.or_eq_true, decide_eq_true_eq] at h
    obtain ⟨he, hrs⟩ := h
    unfold benign
    by_cases hp : p = 0
    · rw [if_pos hp]
    · rw [if_neg hp, if_pos he]
      exact one_byte_benign rs hrs _

/-- C10: on a hit, against a descriptor that accepts one byte per write call
(would-block and interrupted results allowed in between) and has accepted at
least the record length, cat_oid returns true and the bytes delivered are
identical to those delivered by a descriptor that accepts the whole record in a
single write call, namely header ++ payload ++ newline. -/
theorem cat_oid_one_byte (odb : git_odb) (s : List Byte) (o : git_odb_object)
    (ws : List WriteResult) (hit : Hit odb s o) (h1 : one_byte ws = true)
    (hn : (record o).length ≤ counted ws) :
    ∃ res res', cat_oid odb ws s = some res ∧
      cat_oid odb [.count (record o).length] s = some res' ∧
      res.exit = .returned true ∧ res'.exit = .returned true ∧
      res.st.fd = res'.st.fd ∧
      res.st.fd = hdr_seg o ++ git_odb_object_data o ++ ['\n'] ∧
      num_writev res'.st.trace = 1 := by
  obtain ⟨res, a1, a2, a3⟩ := cat_oid_benign_total hit (one_byte_benign ws h1 _) hn
  have hpos : (record o).length ≠ 0 := by simp [record]
  have hb : benign [.count (record o).length] (record o).length = true := by
    simp only [benign, hpos, if_false]
    rw [if_pos ⟨by omega, Nat.le_refl _⟩]
  obtain ⟨res', b1, b2, b3⟩ := cat_oid_benign_total hit hb (by simp [counted])
  refine ⟨res, res', a1, b1, a2, b2, a3.trans b3.symm, a3, ?_⟩
  obtain ⟨st', c1, rfl⟩ := cat_oid_hit_some hit b1
  have hc : (hit_state o).nvec ≠ 0 ∧ (hit_state o).err = 0 := ⟨by simp [hit_state, CAPA], rfl⟩
  rw [write_loop_cons _ _ _ hc] at c1
  have hd : write_loop [] (write_step (.count (record o).length) (hit_state o)) = some st' := c1
  have hw := write_step_num_writev (.count (record o).length) (hit_state o)
  by_cases hcc : (write_step (.count (record o).length) (hit_state o)).nvec ≠ 0 ∧
      (write_step (.count (record o).length) (hit_state o)).err = 0
  · rw [write_loop_nil _ hcc] at hd
    cases hd
  · rw [write_loop_done _ _ hcc] at hd
    cases hd
    rw [finish_trace_some, num_writev_append, hw]
    split_ifs <;> simp [num_writev, hit_state]

theorem cat_oid_one_byte_witness :
    Hit emptyBlobStore emptyBlobId emptyBlob ∧ one_byte oneByteWrites = true ∧
    (record emptyBlob).length ≤ counted oneByteWrites ∧
    ∃ res res', cat_oid emptyBlobStore oneByteWrites emptyBlobId = some res ∧
      cat_oid emptyBlobStore [.count (record emptyBlob).length] emptyBlobId = some res' ∧
      res.exit = .returned true ∧ res'.exit = .returned true ∧
      res.st.fd = res'.st.fd ∧
      res.st.fd = hdr_seg emptyBlob ++ git_odb_object_data emptyBlob ++ ['\n'] ∧
      num_writev res'.st.trace = 1 :=
  ⟨⟨by decide, rfl⟩, by decide, by decide,
    cat_oid_one_byte emptyBlobStore emptyBlobId emptyBlob oneByteWrites ⟨by decide, rfl⟩
      (by decide) (by decide)⟩

/-- Every finite run of outcomes can be completed: after one more zero-byte
write the call has ended. -/
theorem write_loop_completes : ∀ (ws : List WriteResult) (st : WState),
    ∃ st', write_loop (ws ++ [.count 0]) st = some st'
  | [], st => by
    by_cases hc : st.nvec ≠ 0 ∧ st.err = 0
    · rw [List.nil_append, write_loop_cons _ _ _ hc]
      refine ⟨_, write_loop_done [] _ ?_⟩
      rw [write_step_zero]
      simp [ENOSPC]
    · exact ⟨st, write_loop_done _ _ hc⟩
  | r :: rs, st => by
    by_cases hc : st.nvec ≠ 0 ∧ st.err = 0
    · rw [List.cons_append, write_loop_cons _ _ _ hc]
      exact write_loop_completes rs _
    · exact ⟨st, write_loop_done _ _ hc⟩

theorem cat_oid_completes (odb : git_odb) (ws : List WriteResult) (s : List Byte) :
    ∃ res, cat_oid odb (ws ++ [.count 0]) s = some res := by
  rcases hit_or_miss odb s with ⟨o, hit⟩ | hmiss
  · obtain ⟨st', h⟩ := write_loop_completes ws (hit_state o)
    exact ⟨_, by rw [cat_oid_hit hit, h]; rfl⟩
  · exact ⟨_, cat_oid_miss hmiss _⟩

/-! ### The segment-advance step -/

theorem iov_total_append (a b : List iovec) : iov_total (a ++ b) = iov_total a + iov_total b := by
  induction a with
  | nil => simp [iov_total]
  | cons v a ih =>
    rw [List.cons_append]
    simp only [iov_total, ih]
    omega

/-- Shape of `consume`: the first `k` segments, all covered by `w`, are gone;
the next one, not covered by what is left of `w`, is advanced by that much;
the rest is as it was. -/
theorem consume_shape : ∀ (w : Nat) (vs : List iovec),
    ∃ k, k ≤ vs.length ∧ iov_total (vs.take k) ≤ w ∧
      ((vs.drop k = [] ∧ consume w vs = []) ∨
       (∃ v rest, vs.drop k = v :: rest ∧ w - iov_total (vs.take k) < v.iov_len ∧
          consume w vs = v.advanced (w - iov_total (vs.take k)) :: rest))
  | w, [] => ⟨0, Nat.le_refl _, Nat.zero_le _, Or.inl ⟨rfl, rfl⟩⟩
  | w, v :: vs => by
    by_cases hw : w ≥ v.iov_len
    · obtain ⟨k, h1, h2, h3⟩ := consume_shape (w - v.iov_len) vs
      have hc : consume w (v :: vs) = consume (w - v.iov_len) vs := by
        simp [consume, hw]
      have ht : iov_total ((v :: vs).take (k + 1)) = v.iov_len + iov_total (vs.take k) := by
        simp [iov_total]
      refine ⟨k + 1, by simpa using h1, by rw [ht]; omega, ?_⟩
      rw [hc, ht, List.drop_succ_cons]
      have hsub : w - (v.iov_len + iov_total (vs.take k)) = w - v.iov_len - iov_total (vs.take k) := by
        omega
      rw [hsub]
      exact h3
    · refine ⟨0, Nat.zero_le _, Nat.zero_le _, Or.inr ⟨v, vs, rfl, ?_, ?_⟩⟩
      · simp only [List.take_zero, iov_total]
        omega
      · simp only [List.take_zero, iov_total, Nat.sub_zero]
        simp [consume, hw, iovec.advanced]

/-- C12: for a writer state with `nvec` pending segments inside their buffers
and a positive write result `w` not exceeding the pending bytes, after the
segment-advance step the pending segments concatenated are the previous
concatenation without its first `w` bytes.  The first `k` segments, fully
covered by `w` (zero-length ones too), are dropped from the front; if a segment
remains, the first remaining one has its start advanced and its length reduced
by the leftover count, which is less than its length; the later segments are
untouched and in the same order; the entries of `vec` before the pending ones
are untouched. -/
theorem write_step_advances (st : WState) (w : Nat)
    (hlen : st.vec.length = CAPA) (hn : st.nvec ≤ CAPA)
    (hwf : ∀ v ∈ st.request, v.wf) (hpos : 0 < w) (hle : w ≤ st.pending.length) :
    (write_step (.count w) st).pending = st.pending.drop w ∧
    (write_step (.count w) st).pending.length = st.pending.length - w ∧
    ∃ k, k ≤ st.nvec ∧ (write_step (.count w) st).nvec = st.nvec - k ∧
      iov_total (st.request.take k) ≤ w ∧
      ((st.request.drop k = [] ∧ (write_step (.count w) st).request = []) ∨
       (∃ v rest, st.request.drop k = v :: rest ∧
          w - iov_total (st.request.take k) < v.iov_len ∧
          (write_step (.count w) st).request =
            v.advanced (w - iov_total (st.request.take k)) :: rest)) ∧
      (write_step (.count w) st).vec.take (CAPA - st.nvec) = st.vec.take (CAPA - st.nvec) := by
  have hne : st.pending ≠ [] := by
    intro h
    rw [h] at hle
    simp at hle
    omega
  have hI : st.Inv := ⟨hlen, hn, hwf, Or.inr hne⟩
  obtain ⟨b1, b2, b3⟩ := write_step_count_request w hpos st hI
  obtain ⟨_, i2, _, _, _⟩ := write_step_count_inv w hpos st hI
  have hrl : st.request.length = st.nvec := by
    rw [request_eq_drop hlen hn, List.length_drop]
    omega
  obtain ⟨k, k1, k2, k3⟩ := consume_shape w st.request
  refine ⟨i2, by rw [i2, List.length_drop], k, by omega, ?_, k2, ?_, ?_⟩
  · rw [b2]
    rcases k3 with ⟨hd, hc⟩ | ⟨v, rest, hd, _, hc⟩
    · have := congrArg List.length hd
      simp only [List.length_drop, List.length_nil] at this
      rw [hc]
      simp only [List.length_nil]
      omega
    · have := congrArg List.length hd
      simp only [List.length_drop, List.length_cons] at this
      rw [hc]
      simp only [List.length_cons]
      omega
  · rw [b3]
    exact k3
  · rw [write_step_count w hpos]
    exact (advance_spec CAPA (CAPA - st.nvec) w 0 st.vec (by omega) hlen).2.2.2.2

theorem write_step_advances_witness :
    (hit_state emptyBlob).vec.length = CAPA ∧ (hit_state emptyBlob).nvec ≤ CAPA ∧
    (∀ v ∈ (hit_state emptyBlob).request, v.wf) ∧
    0 < 48 ∧ 48 ≤ (hit_state emptyBlob).pending.length ∧
    (write_step (.count 48) (hit_state emptyBlob)).pending
      = (hit_state emptyBlob).pending.drop 48 ∧
    (write_step (.count 48) (hit_state emptyBlob)).pending.length
      = (hit_state emptyBlob).pending.length - 48 :=
  have h := write_step_advances (hit_state emptyBlob) 48 rfl (by decide)
    (hit_state_inv emptyBlob).2.2.1 (by decide) (by decide)
  ⟨rfl, by decide, (hit_state_inv emptyBlob).2.2.1, by decide, by decide, h.1, h.2.1⟩

/-! ### Size of the header buffer -/

theorem toDigitsCore_length_ge : ∀ (e fuel n : Nat), 10 ^ e ≤ n → n < fuel →
    e + 1 ≤ (Nat.toDigitsCore 10 fuel n []).length
  | _, 0, _, _, h => absurd h (Nat.not_lt_zero _)
  | 0, fuel + 1, n, _, _ => by
    simp only [Nat.toDigitsCore]
    split
    · simp
    · rw [Nat.toDigitsCore_lens_eq]
      omega
  | e + 1, fuel + 1, n, h1, h2 => by
    have hp : 1 ≤ 10 ^ e := Nat.one_le_pow _ _ (by decide)
    have h10 : 10 ^ (e + 1) = 10 ^ e * 10 := Nat.pow_succ 10 e
    have hd : 10 ^ e ≤ n / 10 := by
      rw [Nat.le_div_iff_mul_le (by decide)]
      omega
    have hlt : n / 10 < fuel := by omega
    have ih := toDigitsCore_length_ge e fuel (n / 10) hd hlt
    simp only [Nat.toDigitsCore]
    rw [if_neg (by omega), Nat.toDigitsCore_lens_eq]
    omega

/-- A size of twenty decimal digits prints as twenty characters. -/
theorem toDigits_length_twenty {n : Nat} (h1 : 10 ^ 19 ≤ n) (h2 : n < 2 ^ 64) :
    (Nat.toDigits 10 n).length = 20 := by
  have hle := toDigits_length_le h2
  have hge := toDigitsCore_length_ge 19 (n + 1) n h1 (Nat.lt_succ_self n)
  unfold Nat.toDigits at hle ⊢
  omega

/-- The formatted tail and its NUL fit the bytes behind the hex digits for
every type and size except a commit of twenty-digit size. -/
theorem fmt_tail_fits (t : git_object_t) (n : Nat) (hn : n < 2 ^ 64)
    (h : t ≠ .commit ∨ n < 10 ^ 19) :
    (fmt_tail (git_object_type2string t) n).length + 1 ≤ SIZEOF_TAIL := by
  have hd := toDigits_length_le hn
  rw [SIZEOF_TAIL_eq]
  simp only [fmt_tail, List.length_append, List.length_cons, List.length_nil]
  rcases h with h | h
  · cases t
    · exact absurd rfl h
    all_goals simp only [git_object_type2string, String.toList, List.length_cons,
      List.length_nil]
    all_goals omega
  · have h19 : (Nat.toDigits 10 n).length ≤ 19 := by
      unfold Nat.toDigits
      exact Nat.toDigitsCore_length 10 (by decide) (n + 1) n 19 h (by decide)
    have := type2string_length_le t
    omega

/-! ### Termination of the write loop -/

theorem write_loop_positive : ∀ (ws : List WriteResult) (st : WState),
    st.Inv → st.err = 0 → positive_counts ws st.pending.length = true →
    st.pending.length ≤ ws.length →
    ∃ st', write_loop ws st = some st' ∧ st'.nvec = 0 ∧ st'.err = 0 ∧
      num_writev st'.trace ≤ num_writev st.trace + st.pending.length
  | [], st, hI, he, _, hlen => by
    have hp : st.pending = [] := List.length_eq_zero.mp (by simpa using hlen)
    have hz : st.nvec = 0 := by
      rcases hI.2.2.2 with h | h
      · exact h
      · exact absurd hp h
    exact ⟨st, write_loop_done [] st (fun h => h.1 hz), hz, he, Nat.le_add_right _ _⟩
  | r :: rs, st, hI, he, hp, hlen => by
    by_cases hc : st.nvec ≠ 0 ∧ st.err = 0
    · rw [write_loop_cons r rs st hc]
      have hpos : st.pending.length ≠ 0 := by
        rcases hI.2.2.2 with hz | hne
        · exact absurd hz hc.1
        · simpa using hne
      cases r with
      | error e =>
        simp [positive_counts, hpos] at hp
      | count n =>
        simp only [positive_counts, hpos, if_false] at hp
        by_cases hnn : 0 < n ∧ n ≤ st.pending.length
        swap
        · simp [hnn] at hp
        simp only [hnn, and_self, if_true] at hp
        obtain ⟨hn, hle⟩ := hnn
        obtain ⟨i1, i2, _, i4, _⟩ := write_step_count_inv n hn st hI
        have hl : (write_step (.count n) st).pending.length = st.pending.length - n := by
          rw [i2, List.length_drop]
        rw [← hl] at hp
        have hlen' : (write_step (.count n) st).pending.length ≤ rs.length := by
          simp only [List.length_cons] at hlen
          omega
        obtain ⟨st', k1, k2, k3, k4⟩ := write_loop_positive rs _ i1 (i4.trans he) hp hlen'
        refine ⟨st', k1, k2, k3, ?_⟩
        rw [write_step_num_writev, hl] at k4
        omega
    · have hz : st.nvec = 0 := by
        by_contra h
        exact hc ⟨h, he⟩
      exact ⟨st, write_loop_done _ st hc, hz, he, Nat.le_add_right _ _⟩

/-- C14: under the precondition that every write call returns a positive count
not exceeding the bytes still pending, each iteration strictly decreases the
pending byte count and never increases the pending segment count, and on a hit
with a record of N bytes the loop ends after at most N write calls with zero
pending segments, the call returning true. -/
theorem write_loop_terminates (odb : git_odb) (s : List Byte) (o : git_odb_object)
    (ws : List WriteResult) (hit : Hit odb s o)
    (hp : positive_counts ws (record o).length = true)
    (hlen : (record o).length ≤ ws.length) :
    (∀ (st : WState) (n : Nat), st.Inv → 0 < n → n ≤ st.pending.length →
      (write_step (.count n) st).pending.length < st.pending.length ∧
      (write_step (.count n) st).nvec ≤ st.nvec) ∧
    ∃ res, cat_oid odb ws s = some res ∧ res.exit = .returned true ∧
      res.st.nvec = 0 ∧ res.st.pending = [] ∧
      num_writev res.st.trace ≤ (record o).length := by
  constructor
  · intro st n hI hn hle
    obtain ⟨_, i2, _, _, i5⟩ := write_step_count_inv n hn st hI
    refine ⟨?_, i5⟩
    rw [i2, List.length_drop]
    omega
  · have hpd := hit_state_pending o
    rw [← hpd] at hp hlen
    obtain ⟨st', k1, k2, k3, k4⟩ :=
      write_loop_positive ws (hit_state o) (hit_state_inv o) rfl hp hlen
    obtain ⟨_, _, g3, _⟩ := finish_fields GIT_OK (some o) st'
    refine ⟨finish GIT_OK (some o) st', by rw [cat_oid_hit hit, k1]; rfl, ?_, ?_, ?_, ?_⟩
    · rw [finish_exit]
      simp [k3]
    · rw [g3, k2]
    · exact pending_of_nvec_zero (by rw [g3, k2])
    · rw [finish_trace_some, num_writev_append]
      rw [hpd] at k4
      have h0 : num_writev (hit_state o).trace = 0 := rfl
      have h1 : num_writev [Event.git_odb_object_free o,
          if st'.err ≠ 0 then Event.croak st'.err
          else Event.ret (decide (GIT_OK = GIT_OK))] = 0 := by
        split_ifs <;> rfl
      omega

theorem write_loop_terminates_witness :
    Hit emptyBlobStore emptyBlobId emptyBlob ∧
    positive_counts unitWrites (record emptyBlob).length = true ∧
    (record emptyBlob).length ≤ unitWrites.length ∧
    ∃ res, cat_oid emptyBlobStore unitWrites emptyBlobId = some res ∧
      res.exit = .returned true ∧ res.st.nvec = 0 ∧ res.st.pending = [] ∧
      num_writev res.st.trace ≤ (record emptyBlob).length :=
  ⟨⟨by decide, rfl⟩, by decide, by decide,
    (write_loop_terminates emptyBlobStore emptyBlobId emptyBlob unitWrites ⟨by decide, rfl⟩
      (by decide) (by decide)).2⟩

/-! ### The trailer invariant -/

theorem consume_getLast : ∀ (w : Nat) (vs : List iovec), vs.getLast? = some trailer →
    consume w vs = [] ∨ (consume w vs).getLast? = some trailer
  | _, [], _ => Or.inl rfl
  | w, [v], h => by
    have hv : v = trailer := by simpa using h
    subst hv
    by_cases hw : w ≥ trailer.iov_len
    · left
      simp [consume, hw]
    · right
      have h0 : w = 0 := by
        simp only [trailer] at hw
        omega
      subst h0
      simp [consume, trailer]
  | w, v :: a :: rest, h => by
    rw [List.getLast?_cons_cons] at h
    by_cases hw : w ≥ v.iov_len
    · have hc : consume w (v :: a :: rest) = consume (w - v.iov_len) (a :: rest) := by
        simp [consume, hw]
      rw [hc]
      exact consume_getLast _ _ h
    · right
      have hc : consume w (v :: a :: rest) = v.advanced w :: a :: rest := by
        simp [consume, hw, iovec.advanced]
      rw [hc, List.getLast?_cons_cons]
      exact h

theorem iov_total_ge_getLast : ∀ (vs : List iovec) (v : iovec), vs.getLast? = some v →
    v.iov_len ≤ iov_total vs
  | [], _, h => by simp at h
  | [a], v, h => by
    have hv : a = v := by simpa using h
    subst hv
    simp [iov_total]
  | a :: b :: rest, v, h => by
    rw [List.getLast?_cons_cons] at h
    have := iov_total_ge_getLast (b :: rest) v h
    simp only [iov_total] at this ⊢
    omega

theorem hit_state_trailer (o : git_odb_object) : (hit_state o).TrailerInv := by
  refine ⟨hit_state_inv o, Or.inr ?_⟩
  simp [WState.request, hit_state, hit_vec, CAPA]

theorem write_step_trailer (r : WriteResult) (st : WState) (h : st.TrailerInv)
    (hc : st.nvec ≠ 0) : (write_step r st).TrailerInv := by
  obtain ⟨hI, ht⟩ := h
  have hlast : st.request.getLast? = some trailer := by
    rcases ht with h | h
    · exact absurd h hc
    · exact h
  by_cases hr : r.ret ≤ 0
  · obtain ⟨h1, h2, _⟩ := write_step_nonpos r hr st
    obtain ⟨i1, i2, _⟩ := inv_congr h1 h2 hI
    exact ⟨i1, Or.inr (by rw [i2]; exact hlast)⟩
  · cases r with
    | error e => simp [WriteResult.ret] at hr
    | count n =>
      have hn : 0 < n := by simp only [WriteResult.ret] at hr; omega
      obtain ⟨i1, _, _, _, _⟩ := write_step_count_inv n hn st hI
      obtain ⟨_, b2, b3⟩ := write_step_count_request n hn st hI
      refine ⟨i1, ?_⟩
      rcases consume_getLast n st.request hlast with hnil | hl
      · left
        rw [b2, hnil]
        rfl
      · right
        rw [b3]
        exact hl

theorem write_run_trailer : ∀ (rs : List WriteResult) (st : WState), st.TrailerInv →
    (write_run rs st).TrailerInv
  | [], _, h => h
  | r :: rs, st, h => by
    unfold write_run
    by_cases hc : st.nvec ≠ 0 ∧ st.err = 0
    · rw [if_pos hc]
      exact write_run_trailer rs _ (write_step_trailer r st h hc.1)
    · rw [if_neg hc]
      exact h

/-- The loop proper is `write_run`, checked once more at the end. -/
theorem write_loop_eq_run : ∀ (rs : List WriteResult) (st : WState),
    write_loop rs st =
      if (write_run rs st).nvec ≠ 0 ∧ (write_run rs st).err = 0 then none
      else some (write_run rs st)
  | [], st => by simp [write_loop, write_run]
  | r :: rs, st => by
    by_cases hc : st.nvec ≠ 0 ∧ st.err = 0
    · rw [write_loop_cons r rs st hc, write_loop_eq_run rs]
      simp only [write_run, hc, and_self, if_true, ne_eq, not_false_eq_true]
    · rw [write_loop_done _ st hc]
      simp only [write_run, hc, if_false]

/-- C15: on a hit, in every loop state reached in which a write is about to be
issued (`nvec` non-zero, `err` clear), the pending segment count is between 1
and 3, the request is exactly the last `nvec` entries of the three-entry
array, its last segment and the last array entry are the intact one-byte
newline trailer, so the request totals at least one byte and at least one byte
is pending; the `writev` the iteration issues is on that request, whatever its
outcome. -/
theorem writev_request_invariant (o : git_odb_object) (rs : List WriteResult) (st : WState)
    (hst : st = write_run rs (hit_state o)) (hw : st.nvec ≠ 0 ∧ st.err = 0) :
    1 ≤ st.nvec ∧ st.nvec ≤ 3 ∧ st.vec.length = 3 ∧
    st.request = st.vec.drop (3 - st.nvec) ∧ st.request.length = st.nvec ∧
    (3 - st.nvec) + st.request.length = st.vec.length ∧
    st.request.getLast? = some trailer ∧ st.vec.getLast? = some trailer ∧
    trailer.bytes = ['\n'] ∧
    1 ≤ iov_total st.request ∧ 1 ≤ st.pending.length ∧
    ∀ r, ∃ T, (write_step r st).trace = st.trace ++ Event.writev st.request :: T := by
  have hK : st.TrailerInv := by
    rw [hst]
    exact write_run_trailer rs _ (hit_state_trailer o)
  obtain ⟨⟨h1, h2, h3, _⟩, ht⟩ := hK
  have hlast : st.request.getLast? = some trailer := by
    rcases ht with h | h
    · exact absurd h hw.1
    · exact h
  have hreq : st.request = st.vec.drop (CAPA - st.nvec) := request_eq_drop h1 h2
  have hrl : st.request.length = st.nvec := by
    rw [hreq, List.length_drop]
    omega
  have hC : CAPA = 3 := rfl
  have htot := iov_total_ge_getLast st.request trailer hlast
  have hpl : st.pending.length = iov_total st.request := iov_bytes_length h3
  have hvl : st.vec.getLast? = some trailer := by
    have := hlast
    rw [hreq, List.getLast?_drop, if_neg (by omega)] at this
    exact this
  have htl : trailer.iov_len = 1 := rfl
  refine ⟨by omega, by omega, by omega, hreq, hrl, by omega, hlast, hvl, rfl,
    by omega, by omega, fun r => ?_⟩
  obtain ⟨T, hT, _⟩ := write_step_trace r st
  exact ⟨T, hT⟩

theorem writev_request_invariant_witness :
    (write_run [.count 48] (hit_state emptyBlob)).nvec ≠ 0 ∧
    (write_run [.count 48] (hit_state emptyBlob)).err = 0 ∧
    (write_run [.count 48] (hit_state emptyBlob)).nvec = 1 ∧
    (write_run [.count 48] (hit_state emptyBlob)).request.getLast? = some trailer ∧
    1 ≤ (write_run [.count 48] (hit_state emptyBlob)).pending.length :=
  have h := writev_request_invariant emptyBlob [.count 48]
    (write_run [.count 48] (hit_state emptyBlob)) rfl (by decide)
  ⟨by decide, by decide, by decide, h.2.2.2.2.2.2.1, h.2.2.2.2.2.2.2.2.2.2.1⟩

/-! ### Registering an alternate -/

theorem add_backends_found {odb : git_odb} {oid : git_oid} {o : git_odb_object}
    (objects : git_oid → Option git_odb_object) (h : odb oid = .found o) :
    add_backends odb objects oid = .found o := by
  unfold add_backends
  rw [h]

/-- The native registration removes nothing: an object found before is found
after, whatever status the registration reports. -/
theorem add_disk_alternate_keeps (env : odb_env) (db : odb_store) (path : List Byte)
    {oid : git_oid} {o : git_odb_object} (h : git_odb_read db.read oid = .found o) :
    git_odb_read (git_odb_add_disk_alternate env db path).2.read oid = .found o := by
  unfold git_odb_add_disk_alternate
  cases env.dir path with
  | none => exact h
  | some d =>
    by_cases hi : d.st_ino ∈ db.inodes
    · simp only [hi, if_true]
      exact h
    · simp only [hi, if_false]
      exact add_backends_found _ (add_backends_found _ h)

theorem add_disk_alternate_rc (env : odb_env) (db : odb_store) (path : List Byte) :
    (git_odb_add_disk_alternate env db path).1 ≠ GIT_OK ↔
      ∃ d, env.dir path = some d ∧ d.st_ino ∉ db.inodes ∧ d.alternates_rc ≠ GIT_OK := by
  unfold git_odb_add_disk_alternate
  cases hd : env.dir path with
  | none => simp [GIT_OK]
  | some d =>
    by_cases hi : d.st_ino ∈ db.inodes
    · simp [hi, GIT_OK]
    · simp [hi]

/-- C11 (as stated, refuted), in two places.  The path /nonexistent/objects
does not exist, yet the native registration reports GIT_OK and add_alternate
returns normally instead of raising.  And where the directory exists but its
alternates file cannot be read, add_alternate raises, yet the store is not as
it was: the directory's own backends were added before the failure, and the id
of the blob "11\n", which missed before the call, hits after it. -/
theorem add_alternate_claim_fails :
    (noDirs.dir "/nonexistent/objects".toList).isNone = true ∧
    (add_alternate noDirs emptyBlobDb "/nonexistent/objects".toList).exit
      = VoidExit.returned ∧
    (add_alternate unreadableAlternates emptyBlobDb "/srv/objects".toList).exit
      = VoidExit.croaked (-1) "git_odb_add_disk_alternate".toList "failed to read".toList ∧
    (cat_oid emptyBlobDb.read [.count 52] blob11Id).map Result.exit
      = some (.returned false) ∧
    (cat_oid (add_alternate unreadableAlternates emptyBlobDb "/srv/objects".toList).odb.read
        [.count 52] blob11Id).map Result.exit
      = some (.returned true) := by
  decide

/-- C11 (amended): add_alternate raises exactly when the native registration
reports a status other than GIT_OK, the error carrying that status, and
returns normally otherwise; that is the case exactly when the directory
exists, is not registered yet and loading its alternates fails, so a path that
does not exist does not raise and leaves the store as it was.  Whether it
raises or not, no registered source is removed: every lookup that found an
object before the call finds the same object after it, and cat_oid on an
identifier that hit before behaves as before. -/
theorem add_alternate_raises_iff (env : odb_env) (db : odb_store) (path : List Byte) :
    ((add_alternate env db path).exit = VoidExit.returned ↔
      (git_odb_add_disk_alternate env db path).1 = GIT_OK) ∧
    ((git_odb_add_disk_alternate env db path).1 ≠ GIT_OK →
      ∃ detail, (add_alternate env db path).exit =
        VoidExit.croaked (git_odb_add_disk_alternate env db path).1
          "git_odb_add_disk_alternate".toList detail) ∧
    ((add_alternate env db path).exit ≠ VoidExit.returned ↔
      ∃ d, env.dir path = some d ∧ d.st_ino ∉ db.inodes ∧ d.alternates_rc ≠ GIT_OK) ∧
    (env.dir path = none →
      (add_alternate env db path).exit = VoidExit.returned ∧
      (add_alternate env db path).odb = db) ∧
    (∀ i ∈ db.inodes, i ∈ (add_alternate env db path).odb.inodes) ∧
    (∀ oid o, git_odb_read db.read oid = .found o →
      git_odb_read (add_alternate env db path).odb.read oid = .found o) ∧
    (∀ ws s o, Hit db.read s o →
      cat_oid (add_alternate env db path).odb.read ws s = cat_oid db.read ws s) := by
  have hexit : (add_alternate env db path).exit = VoidExit.returned ↔
      (git_odb_add_disk_alternate env db path).1 = GIT_OK := by
    unfold add_alternate croak_if_err
    by_cases h : (git_odb_add_disk_alternate env db path).1 = GIT_OK
    · simp [h]
    · simp [h]
  have hkeep : ∀ oid o, git_odb_read db.read oid = .found o →
      git_odb_read (add_alternate env db path).odb.read oid = .found o :=
    fun oid o h => add_disk_alternate_keeps env db path h
  refine ⟨hexit, ?_, ?_, ?_, ?_, hkeep, ?_⟩
  · intro h
    unfold add_alternate croak_if_err
    simp only [h, ne_eq, not_false_eq_true, if_true]
    exact ⟨_, rfl⟩
  · rw [← add_disk_alternate_rc]
    exact not_congr hexit
  · intro h
    unfold add_alternate croak_if_err git_odb_add_disk_alternate
    simp [h, GIT_OK]
  · intro i hi
    unfold add_alternate git_odb_add_disk_alternate
    cases env.dir path with
    | none => exact hi
    | some d =>
      by_cases hm : d.st_ino ∈ db.inodes
      · simp only [hm, if_true]
        exact hi
      · simp only [hm, if_false, List.mem_append]
        exact Or.inl (Or.inl hi)
  · intro ws s o hit
    have hit' : Hit (add_alternate env db path).odb.read s o := ⟨hit.1, hkeep _ _ hit.2⟩
    rw [cat_oid_hit hit, cat_oid_hit hit']

theorem add_alternate_raises_iff_witness :
    (add_alternate unreadableAlternates emptyBlobDb "/srv/objects".toList).exit
      ≠ VoidExit.returned ∧
    Hit emptyBlobDb.read emptyBlobId emptyBlob ∧
    cat_oid (add_alternate unreadableAlternates emptyBlobDb "/srv/objects".toList).odb.read
        sampleWrites emptyBlobId
      = cat_oid emptyBlobDb.read sampleWrites emptyBlobId :=
  have h := add_alternate_raises_iff unreadableAlternates emptyBlobDb "/srv/objects".toList
  ⟨by decide, ⟨by decide, rfl⟩,
    h.2.2.2.2.2.2 sampleWrites emptyBlobId emptyBlob ⟨by decide, rfl⟩⟩

/-! ### The header of a stored object -/

theorem PTRDIFF_MAX_lt : PTRDIFF_MAX < 10 ^ 19 := by decide

theorem to_hex_lowercase (n : Nat) : to_hex n ∈ "0123456789abcdef".toList := by
  have hl : n % 16 < "0123456789abcdef".toList.length := by
    have : "0123456789abcdef".toList.length = 16 := by decide
    rw [this]
    exact Nat.mod_lt _ (by decide)
  unfold to_hex
  rw [List.getD_eq_getElem _ _ hl]
  exact List.getElem_mem _

theorem git_oid_nfmt_lowercase (n : Nat) (oid : git_oid) :
    ∀ c ∈ git_oid_nfmt n oid, c ∈ "0123456789abcdef".toList := by
  intro c hc
  simp only [git_oid_nfmt, List.mem_map] at hc
  obtain ⟨i, _, rfl⟩ := hc
  exact to_hex_lowercase _

/-- An identifier of the exact width that parses is read digit for digit:
nothing is zero-filled. -/
theorem git_oid_fromstrn_exact {s : List Byte} (hw : s.length = GIT_OID_HEXSZ)
    (hp : (git_oid_fromstrn s).1 = GIT_OK) :
    fromstrn_loop s = some (git_oid_fromstrn s).2 := by
  unfold git_oid_fromstrn at hp ⊢
  have h0 : ¬ s.length = 0 := by rw [hw]; decide
  have h1 : ¬ s.length > GIT_OID_HEXSZ := by omega
  rw [if_neg h0, if_neg h1] at hp ⊢
  cases hl : fromstrn_loop s with
  | none =>
    rw [hl] at hp
    have hne : ((-1 : Int), ([] : git_oid)).1 ≠ GIT_OK := by decide
    exact absurd hp hne
  | some ns =>
    simp [hw]

/-- For a commit of twenty-digit size the formatted tail with its NUL needs
one byte more than `sizeof(" commit 18446744073709551615")`. -/
theorem fmt_tail_commit_overflow (n : Nat) (h1 : 10 ^ 19 ≤ n) (h2 : n < 2 ^ 64) :
    (fmt_tail (git_object_type2string .commit) n).length + 1 = SIZEOF_TAIL + 1 := by
  have hd := toDigits_length_twenty h1 h2
  rw [SIZEOF_TAIL_eq]
  simp only [fmt_tail, List.length_append, List.length_cons, List.length_nil, hd]
  rfl

/-- C2: for every stored object (commit, tree, blob or tag) of a size an
object in memory can have, looked up by its exact-width hex identifier, the
identifier is read digit for digit, and the header segment cat_oid builds is
the forty lowercase hex digits of the object's id, a space, the type name, a
space, the decimal size and a newline; the record has
width + 1 + len(type) + 1 + len(decimal(size)) + 1 + size + 1 bytes and a
write that takes it whole makes the call return true with exactly the record
on the descriptor; for the empty blob the record is
"e69de29bb2d1d6434b8b29ae775ad8c2e48c5391 blob 0\n\n", 49 bytes, and the call
returns true. -/
theorem cat_oid_header_exact (odb : git_odb) (s : List Byte) (o : git_odb_object)
    (hit : Hit odb s o) (hw : s.length = GIT_OID_HEXSZ)
    (hsz : git_odb_object_size o ≤ PTRDIFF_MAX) :
    fromstrn_loop s = some (git_oid_fromstrn s).2 ∧
    hdr_seg o = git_oid_nfmt GIT_OID_HEXSZ (git_odb_object_id o) ++ [' '] ++
      git_object_type2string (git_odb_object_type o) ++ [' '] ++
      Nat.toDigits 10 (git_odb_object_size o) ++ ['\n'] ∧
    (git_oid_nfmt GIT_OID_HEXSZ (git_odb_object_id o)).length = GIT_OID_HEXSZ ∧
    (∀ c ∈ git_oid_nfmt GIT_OID_HEXSZ (git_odb_object_id o),
      c ∈ "0123456789abcdef".toList) ∧
    (record o).length = GIT_OID_HEXSZ + 1 +
      (git_object_type2string (git_odb_object_type o)).length + 1 +
      (Nat.toDigits 10 (git_odb_object_size o)).length + 1 + git_odb_object_size o + 1 ∧
    (∃ res, cat_oid odb [.count (record o).length] s = some res ∧
      res.exit = .returned true ∧ res.st.fd = record o) ∧
    (cat_oid emptyBlobStore [.count 49] emptyBlobId).map
        (fun r => (r.exit, r.st.fd, r.st.fd.length)) =
      some (.returned true,
        "e69de29bb2d1d6434b8b29ae775ad8c2e48c5391 blob 0\n\n".toList, 49) := by
  have hlt : git_odb_object_size o < 10 ^ 19 := Nat.lt_of_le_of_lt hsz PTRDIFF_MAX_lt
  have hfit := fmt_tail_fits (git_odb_object_type o) (git_odb_object_size o) o.size_lt
    (Or.inr hlt)
  have hhdr := hdr_seg_exact o (by omega)
  have hnl := git_oid_nfmt_length GIT_OID_HEXSZ (git_odb_object_id o)
  have hpos : (record o).length ≠ 0 := by simp [record]
  have hb : benign [.count (record o).length] (record o).length = true := by
    simp only [benign, hpos, if_false]
    rw [if_pos ⟨by omega, Nat.le_refl _⟩]
  refine ⟨git_oid_fromstrn_exact hw hit.1, hhdr, hnl, git_oid_nfmt_lowercase _ _, ?_,
    cat_oid_benign_total hit hb (by simp [counted]), by decide⟩
  unfold record
  rw [hhdr]
  simp only [List.length_append, hnl, List.length_cons, List.length_nil,
    git_odb_object_data, git_odb_object_size, o.size_eq]

theorem cat_oid_header_exact_witness :
    Hit largestCommitStore largestCommitId largestCommit ∧
    largestCommitId.length = GIT_OID_HEXSZ ∧
    git_odb_object_size largestCommit ≤ PTRDIFF_MAX ∧
    hdr_seg largestCommit =
      git_oid_nfmt GIT_OID_HEXSZ (git_odb_object_id largestCommit) ++ [' '] ++
      git_object_type2string (git_odb_object_type largestCommit) ++ [' '] ++
      Nat.toDigits 10 (git_odb_object_size largestCommit) ++ ['\n'] ∧
    hdr_seg largestCommit =
      "0123456789abcdef0123456789abcdef01234567 commit 9223372036854775807\n".toList :=
  ⟨⟨by decide, rfl⟩, by decide, by decide,
    (cat_oid_header_exact largestCommitStore largestCommitId largestCommit
      ⟨by decide, rfl⟩ (by decide) (by decide)).2.1,
    by decide⟩

/-! ### The header buffer over the whole size range -/

end Gcf2
